import Mathlib

/-!
Verification of the osjs-build configuration / package pipeline.

This file shallowly embeds the JavaScript sources of the repository
(`src/utils.js`, `src/configuration.js`, `src/packages.js`) as executable
Lean definitions and proves or refutes the frozen claims about them.

Modelling conventions:
* JavaScript values appearing in the data paths of the claims are modelled
  by the mutually inductive types `JsValue` / `JsItems` / `JsFields`
  (`undefined`, `null`, booleans, numbers, strings, arrays, plain
  objects).  Numbers are modelled as integers: none of the claimed
  properties depends on non-integer float behaviour.
* Plain objects are association lists (`JsFields`) in insertion order with
  unique keys, the invariant maintained by every constructor in this file.
  `for..in` enumeration order (integer-like keys first) only influences
  the field order of results, which no theorem below depends on, so
  fields are iterated in list order.
* Code that can throw returns `Except Unit`; `Except.error ()` is a thrown
  JavaScript exception.  The sources run in sloppy mode, so assigning a
  property to a primitive is a silent no-op while reading or writing a
  property of `null` / `undefined` throws; `jsSetE` / `jsGetE` reproduce
  this.  Expando properties on arrays and `length` assignment are not
  modelled (`jsSetE` on an array with a non-index key returns the array
  unchanged); such properties are dropped by the JSON serialization the
  pipeline applies to every result, and no theorem below depends on them.
* Ambient process state (`process.env`, `OSJS_ROOT`, the platform flag)
  and the file system (glob results, file contents) are passed as explicit
  parameters.
-/

namespace OsjsBuild

mutual
/-- A JavaScript value as it occurs in the configuration / metadata
pipeline: `undefined`, `null`, booleans, (integer) numbers, strings,
arrays and plain objects. -/
inductive JsValue : Type where
  | vUndef : JsValue
  | vNull : JsValue
  | vBool : Bool → JsValue
  | vNum : Int → JsValue
  | vStr : String → JsValue
  | vArr : JsItems → JsValue
  | vObj : JsFields → JsValue
  deriving Repr

/-- The elements of a JavaScript array. -/
inductive JsItems : Type where
  | nil : JsItems
  | cons : JsValue → JsItems → JsItems
  deriving Repr

/-- The fields of a plain JavaScript object, in insertion order. -/
inductive JsFields : Type where
  | nil : JsFields
  | cons : String → JsValue → JsFields → JsFields
  deriving Repr
end

open JsValue

mutual
/-- Structural equality test on values. -/
def beqJ : JsValue → JsValue → Bool
  | .vUndef, .vUndef => true
  | .vNull, .vNull => true
  | .vBool x, .vBool y => x = y
  | .vNum x, .vNum y => x = y
  | .vStr x, .vStr y => x = y
  | .vArr xs, .vArr ys => beqItems xs ys
  | .vObj xs, .vObj ys => beqFields xs ys
  | _, _ => false

/-- Structural equality test on array elements. -/
def beqItems : JsItems → JsItems → Bool
  | .nil, .nil => true
  | .cons x xs, .cons y ys => beqJ x y && beqItems xs ys
  | _, _ => false

/-- Structural equality test on field lists. -/
def beqFields : JsFields → JsFields → Bool
  | .nil, .nil => true
  | .cons k x xs, .cons l y ys => (k = l : Bool) && beqJ x y && beqFields xs ys
  | _, _ => false
end

theorem beq_sound (n : Nat) :
    (∀ a b : JsValue, sizeOf a ≤ n → beqJ a b = true → a = b) ∧
    (∀ xs ys : JsItems, sizeOf xs ≤ n → beqItems xs ys = true → xs = ys) ∧
    (∀ fs gs : JsFields, sizeOf fs ≤ n → beqFields fs gs = true → fs = gs) := by
  induction n using Nat.strongRecOn with
  | _ n ih =>
    refine ⟨?_, ?_, ?_⟩
    · intro a b hs h
      cases a <;> cases b <;> simp [beqJ] at h ⊢ <;> try exact h
      · next xs ys =>
        have hlt : sizeOf xs < n := by simp at hs; omega
        exact (ih _ hlt).2.1 xs ys (by omega) h
      · next xs ys =>
        have hlt : sizeOf xs < n := by simp at hs; omega
        exact (ih _ hlt).2.2 xs ys (by omega) h
    · intro xs ys hs h
      cases xs with
      | nil =>
        cases ys with
        | nil => rfl
        | cons y tl => simp [beqItems] at h
      | cons x tl =>
        cases ys with
        | nil => simp [beqItems] at h
        | cons y tl2 =>
          simp only [beqItems, Bool.and_eq_true] at h
          have h1 : sizeOf x < n := by simp at hs; omega
          have h2 : sizeOf tl < n := by simp at hs; omega
          rw [(ih _ h1).1 x y (by omega) h.1, (ih _ h2).2.1 tl tl2 (by omega) h.2]
    · intro fs gs hs h
      cases fs with
      | nil =>
        cases gs with
        | nil => rfl
        | cons l y tl => simp [beqFields] at h
      | cons k x tl =>
        cases gs with
        | nil => simp [beqFields] at h
        | cons l y tl2 =>
          simp only [beqFields, Bool.and_eq_true, decide_eq_true_eq] at h
          obtain ⟨⟨hk, hv⟩, hrest⟩ := h
          have h1 : sizeOf x < n := by simp at hs; omega
          have h2 : sizeOf tl < n := by simp at hs; omega
          rw [hk, (ih _ h1).1 x y (by omega) hv, (ih _ h2).2.2 tl tl2 (by omega) hrest]

theorem beq_refl (n : Nat) :
    (∀ a : JsValue, sizeOf a ≤ n → beqJ a a = true) ∧
    (∀ xs : JsItems, sizeOf xs ≤ n → beqItems xs xs = true) ∧
    (∀ fs : JsFields, sizeOf fs ≤ n → beqFields fs fs = true) := by
  induction n using Nat.strongRecOn with
  | _ n ih =>
    refine ⟨?_, ?_, ?_⟩
    · intro a hs
      cases a <;> simp [beqJ]
      · next xs =>
        have hlt : sizeOf xs < n := by simp at hs; omega
        exact (ih _ hlt).2.1 xs (by omega)
      · next xs =>
        have hlt : sizeOf xs < n := by simp at hs; omega
        exact (ih _ hlt).2.2 xs (by omega)
    · intro xs hs
      cases xs with
      | nil => simp [beqItems]
      | cons x tl =>
        have h1 : sizeOf x < n := by simp at hs; omega
        have h2 : sizeOf tl < n := by simp at hs; omega
        simp only [beqItems, Bool.and_eq_true]
        exact ⟨(ih _ h1).1 x (by omega), (ih _ h2).2.1 tl (by omega)⟩
    · intro fs hs
      cases fs with
      | nil => simp [beqFields]
      | cons k v tl =>
        have h1 : sizeOf v < n := by simp at hs; omega
        have h2 : sizeOf tl < n := by simp at hs; omega
        simp only [beqFields, Bool.and_eq_true, decide_eq_true_eq]
        refine ⟨⟨trivial, (ih _ h1).1 v (by omega)⟩, (ih _ h2).2.2 tl (by omega)⟩

instance : DecidableEq JsValue := fun a b =>
  match h : beqJ a b with
  | true => isTrue ((beq_sound (sizeOf a)).1 a b (Nat.le_refl _) h)
  | false => isFalse (fun he => by
      subst he
      rw [(beq_refl (sizeOf a)).1 a (Nat.le_refl _)] at h
      exact Bool.noConfusion h)

instance : DecidableEq JsItems := fun a b =>
  match h : beqItems a b with
  | true => isTrue ((beq_sound (sizeOf a)).2.1 a b (Nat.le_refl _) h)
  | false => isFalse (fun he => by
      subst he
      rw [(beq_refl (sizeOf a)).2.1 a (Nat.le_refl _)] at h
      exact Bool.noConfusion h)

instance : DecidableEq JsFields := fun a b =>
  match h : beqFields a b with
  | true => isTrue ((beq_sound (sizeOf a)).2.2 a b (Nat.le_refl _) h)
  | false => isFalse (fun he => by
      subst he
      rw [(beq_refl (sizeOf a)).2.2 a (Nat.le_refl _)] at h
      exact Bool.noConfusion h)

example : (JsValue.vArr (.cons (.vNum 3) .nil) = JsValue.vArr (.cons (.vNum 3) .nil)) := by decide

example : (JsValue.vObj (.cons "a" (.vNum 3) .nil) ≠ JsValue.vObj (.cons "a" (.vNum 4) .nil)) := by
  decide

---------------------------------------------------------------------------
-- Basic operations on object fields and array items
---------------------------------------------------------------------------

namespace JsFields

/-- First-match association lookup (JavaScript property read on a plain
object; keys are unique by invariant). -/
def lookup : JsFields → String → Option JsValue
  | .nil, _ => none
  | .cons k v tl, p => if k = p then some v else lookup tl p

/-- Whether a key is present. -/
def hasKey : JsFields → String → Bool
  | .nil, _ => false
  | .cons k _ tl, p => k = p || hasKey tl p

/-- JavaScript property assignment on a plain object: replace the value in
place when the key exists, append otherwise. -/
def set (fs : JsFields) (p : String) (v : JsValue) : JsFields :=
  match fs with
  | .nil => .cons p v .nil
  | .cons k w tl => if k = p then .cons k v tl else .cons k w (set tl p v)

/-- JavaScript `delete` of a property. -/
def erase : JsFields → String → JsFields
  | .nil, _ => .nil
  | .cons k v tl, p => if k = p then erase tl p else .cons k v (erase tl p)

/-- The keys, in order. -/
def keys : JsFields → List String
  | .nil => []
  | .cons k _ tl => k :: keys tl

end JsFields

namespace JsItems

/-- Number of elements. -/
def length : JsItems → Nat
  | .nil => 0
  | .cons _ tl => 1 + length tl

/-- Element at an index, with a default. -/
def getD : JsItems → Nat → JsValue → JsValue
  | .nil, _, d => d
  | .cons x _, 0, _ => x
  | .cons _ tl, Nat.succ n, d => getD tl n d

/-- Index assignment: overwrite in range, pad with `undefined` beyond the
end (JavaScript holes read back as `undefined` in this model). -/
def setAt : JsItems → Nat → JsValue → JsItems
  | .nil, 0, v => .cons v .nil
  | .nil, Nat.succ n, v => .cons .vUndef (setAt .nil n v)
  | .cons _ tl, 0, v => .cons v tl
  | .cons x tl, Nat.succ n, v => .cons x (setAt tl n v)

/-- Concatenation. -/
def append : JsItems → JsItems → JsItems
  | .nil, ys => ys
  | .cons x tl, ys => .cons x (append tl ys)

end JsItems

---------------------------------------------------------------------------
-- JavaScript primitive semantics: truthiness, String(), property access
---------------------------------------------------------------------------

/-- JavaScript truthiness. -/
def jsTruthy : JsValue → Bool
  | .vUndef => false
  | .vNull => false
  | .vBool b => b
  | .vNum n => n ≠ 0
  | .vStr s => s ≠ ""
  | .vArr _ => true
  | .vObj _ => true

/-- Decimal digits of a natural number (fueled helper). -/
def natDecimalGo : Nat → Nat → List Char
  | 0, _ => []
  | Nat.succ f, n =>
    if n < 10 then [Char.ofNat (48 + n)]
    else natDecimalGo f (n / 10) ++ [Char.ofNat (48 + n % 10)]

/-- Decimal digits of a natural number. -/
def natDecimal (n : Nat) : List Char := natDecimalGo (n + 1) n

/-- Decimal rendering of an integer. -/
def intDecimal (i : Int) : List Char :=
  if i < 0 then '-' :: natDecimal i.natAbs else natDecimal i.natAbs

mutual
/-- JavaScript `String(value)` conversion. -/
def jsToString : JsValue → String
  | .vUndef => "undefined"
  | .vNull => "null"
  | .vBool b => if b then "true" else "false"
  | .vNum n => String.mk (intDecimal n)
  | .vStr s => s
  | .vArr xs => jsToStringItems xs
  | .vObj _ => "[object Object]"

/-- `Array.prototype.toString`: elements joined with commas, `null` and
`undefined` elements rendered as empty strings. -/
def jsToStringItems : JsItems → String
  | .nil => ""
  | .cons x tl =>
    (match x with
     | .vNull => ""
     | .vUndef => ""
     | _ => jsToString x) ++
    (match tl with
     | .nil => ""
     | _ => "," ++ jsToStringItems tl)
end

/-- Decimal digit test. -/
def isDigitChar (c : Char) : Bool := 48 ≤ c.toNat && c.toNat ≤ 57

/-- Canonical array-index interpretation of a property key. -/
def toIndexQ (s : String) : Option Nat :=
  let cs := s.data
  if cs ≠ [] && cs.all isDigitChar && (cs = ['0'] || cs.head? ≠ some '0') then
    some (cs.foldl (fun n c => n * 10 + (c.toNat - 48)) 0)
  else none

/-- JavaScript property read `o[p]`: throws on `null` / `undefined`,
returns `undefined` for missing properties. -/
def jsGetE : JsValue → String → Except Unit JsValue
  | .vNull, _ => .error ()
  | .vUndef, _ => .error ()
  | .vObj fs, p => .ok ((fs.lookup p).getD .vUndef)
  | .vArr xs, p =>
    .ok (match toIndexQ p with
      | some i => xs.getD i .vUndef
      | none => if p = "length" then .vNum (JsItems.length xs) else .vUndef)
  | .vStr s, p =>
    .ok (match toIndexQ p with
      | some i =>
        (match s.data.drop i with
         | c :: _ => .vStr (String.mk [c])
         | [] => .vUndef)
      | none => if p = "length" then .vNum s.data.length else .vUndef)
  | .vBool _, _ => .ok (.vUndef)
  | .vNum _, _ => .ok (.vUndef)

/-- JavaScript property write `o[p] = v` in sloppy mode: throws on `null` /
`undefined`, silently no-ops on other primitives, updates objects and
index positions of arrays (array expando properties are not modelled). -/
def jsSetE : JsValue → String → JsValue → Except Unit JsValue
  | .vNull, _, _ => .error ()
  | .vUndef, _, _ => .error ()
  | .vObj fs, p, v => .ok (.vObj (fs.set p v))
  | .vArr xs, p, v =>
    .ok (match toIndexQ p with
      | some i => .vArr (xs.setAt i v)
      | none => .vArr xs)
  | .vBool b, _, _ => .ok (.vBool b)
  | .vNum n, _, _ => .ok (.vNum n)
  | .vStr s, _, _ => .ok (.vStr s)

/-- The test `v.constructor === Object`: throws on `null` / `undefined`,
true exactly for plain objects. -/
def ctorIsObjectE : JsValue → Except Unit Bool
  | .vNull => .error ()
  | .vUndef => .error ()
  | .vObj _ => .ok true
  | _ => .ok false

/-- Claim-side path lookup: descend through object fields only; `none`
when the walk leaves the tree. -/
def getPathO : JsValue → List String → Option JsValue
  | v, [] => some v
  | .vObj fs, k :: ks =>
    (match fs.lookup k with
     | some v2 => getPathO v2 ks
     | none => none)
  | _, _ :: _ => none

---------------------------------------------------------------------------
-- src/utils.js: mergeObject
---------------------------------------------------------------------------

/-- The body of `mergeJSON` from `src/utils.js`, iterating the fields of
the source object.  Per key `p` with source value `v2`, the `try` block
evaluates `obj2[p].constructor === Object` (throws for `null` /
`undefined`), on success either recurses into `mergeJSON(obj1[p],
obj2[p])` and assigns the result, or assigns `obj1[p] = obj2[p]`; the
`catch` handler performs `obj1[p] = obj2[p]`, whose own exception
propagates.  Assignments use sloppy-mode `jsSetE`. -/
def mergeFields (o1 : JsValue) : JsFields → Except Unit JsValue
  | .nil => .ok o1
  | .cons p v2 rest =>
    let step : Except Unit JsValue :=
      match v2 with
      | .vNull => jsSetE o1 p v2
      | .vUndef => jsSetE o1 p v2
      | .vObj g =>
        (match jsGetE o1 p with
         | .error _ => jsSetE o1 p v2
         | .ok cur =>
           (match mergeFields cur g with
            | .error _ => jsSetE o1 p v2
            | .ok merged =>
              (match jsSetE o1 p merged with
               | .error _ => jsSetE o1 p v2
               | .ok o1x => .ok o1x)))
      | _ => jsSetE o1 p v2
    match step with
    | .ok o1x => mergeFields o1x rest
    | .error e => .error e

/-- `mergeJSON(obj1, obj2)` from `src/utils.js`.  `for..in` over a
non-object source enumerates no own properties in this model (the
function is only reached with plain-object sources: at top level by the
callers, recursively guarded by the constructor check). -/
def mergeJSON (o1 : JsValue) : JsValue → Except Unit JsValue
  | .vObj fields => mergeFields o1 fields
  | _ => .ok o1

/-- `mergeObject(into, from)` from `src/utils.js`. -/
def mergeObject (into source : JsValue) : Except Unit JsValue :=
  mergeJSON into source

example :
    mergeObject (.vObj (.cons "k" (.vNum 5) .nil))
      (.vObj (.cons "k" (.vObj (.cons "a" (.vNum 1) .nil)) .nil)) =
    .ok (.vObj (.cons "k" (.vNum 5) .nil)) := rfl


---------------------------------------------------------------------------
-- String helpers (substring search, first-occurrence replace, POSIX paths)
---------------------------------------------------------------------------

/-- Does the list start with the given pattern? -/
def listStartsWith : List Char → List Char → Bool
  | _, [] => true
  | [], _ :: _ => false
  | c :: cs, p :: ps => c = p && listStartsWith cs ps

/-- Does the list contain the pattern as a contiguous sublist? -/
def containsSubL : List Char → List Char → Bool
  | [], pat => listStartsWith [] pat
  | c :: tl, pat => listStartsWith (c :: tl) pat || containsSubL tl pat

/-- `String.prototype.includes` / an unanchored regular-expression literal
match. -/
def containsSub (hay pat : String) : Bool := containsSubL hay.data pat.data

/-- Replace the first occurrence of `pat` (taken literally) by `repl`;
models `String.prototype.replace` with a string pattern. -/
def replaceFirstL (hay pat repl : List Char) : List Char :=
  match hay with
  | [] => if pat = [] then repl else []
  | c :: tl =>
    if listStartsWith (c :: tl) pat then repl ++ (c :: tl).drop pat.length
    else c :: replaceFirstL tl pat repl

/-- String wrapper for `replaceFirstL`. -/
def replaceFirst (s pat repl : String) : String :=
  String.mk (replaceFirstL s.data pat.data repl.data)

/-- POSIX `path.basename`: strip trailing slashes, then the part after the
last slash. -/
def basenameL (cs : List Char) : List Char :=
  let cs2 := (cs.reverse.dropWhile (· = '/')).reverse
  if cs2 = [] then (if cs = [] then [] else ['/'])
  else (cs2.reverse.takeWhile (· ≠ '/')).reverse

/-- String wrapper for `basenameL`. -/
def basename (s : String) : String := String.mk (basenameL s.data)

/-- POSIX `path.dirname`: strip trailing slashes, drop the last component,
strip the separator again. -/
def dirnameL (cs : List Char) : List Char :=
  let cs2 := (cs.reverse.dropWhile (· = '/')).reverse
  if cs2 = [] then (if cs.head? = some '/' then ['/'] else ['.'])
  else
    let rest := (cs2.reverse.dropWhile (· ≠ '/')).reverse
    let rest2 := (rest.reverse.dropWhile (· = '/')).reverse
    if rest2 = [] then (if rest.head? = some '/' then ['/'] else ['.'])
    else rest2

/-- String wrapper for `dirnameL`. -/
def dirname (s : String) : String := String.mk (dirnameL s.data)

example : dirname "src/packages/default/Pkg/metadata.json" = "src/packages/default/Pkg" := by decide

example : basename "src/packages/default/Pkg" = "Pkg" := by decide

---------------------------------------------------------------------------
-- src/utils.js: fixWinPath, checkEnabledState, mutateManifest
---------------------------------------------------------------------------

/-- `fixWinPath(str, slashes)` from `src/utils.js`; `iswin` is the ambient
`ISWIN` platform flag. -/
def fixWinPath (iswin : Bool) (s : String) (slashes : Bool) : String :=
  if iswin then
    let s2 : List Char :=
      match s.data with
      | [] => []
      | c :: tl => c.toUpper :: tl.map Char.toLower
    if slashes then String.mk (s2.map (fun c => if c = '\x5c' then '/' else c))
    else String.mk s2
  else s

/-- Split a character list on a separator character (JavaScript
`String.prototype.split` with a one-character separator). -/
def splitCharsL (sep : Char) : List Char → List (List Char)
  | [] => [[]]
  | c :: tl =>
    let r := splitCharsL sep tl
    if c = sep then [] :: r
    else
      (match r with
       | [] => [[c]]
       | x :: rest => (c :: x) :: rest)

/-- String wrapper for `splitCharsL`. -/
def jsSplitChar (s : String) (sep : Char) : List String :=
  (splitCharsL sep s.data).map String.mk

/-- Does the string end with the given suffix? -/
def strEndsWith (s pat : String) : Bool :=
  listStartsWith s.data.reverse pat.data.reverse

/-- Optional membership: JavaScript `list.indexOf(x) !== -1` where `x` may
be `undefined` (a string list never contains `undefined`). -/
def memOpt (o : Option String) (l : List String) : Bool :=
  match o with
  | some s => l.contains s
  | none => false

/-- `checkEnabledState(enabled, disabled, meta)` from `src/utils.js`.
Reads `meta.path` (throws unless it is a string, since `.split` is called
on it), takes the second `/`-separated component as the short name, and
branches on `String(meta.enabled) === "false"`. -/
def checkEnabledStateE (enabledL disabledL : List String) (meta : JsValue) :
    Except Unit Bool := do
  let pathV ← jsGetE meta "path"
  match pathV with
  | .vStr s =>
    let shortName : Option String := (jsSplitChar s '/').get? 1
    let enabledV ← jsGetE meta "enabled"
    if jsToString enabledV = "false" then
      .ok (memOpt shortName enabledL || enabledL.contains s)
    else
      .ok (!(memOpt shortName disabledL || disabledL.contains s))
  | _ => .error ()

/-- The per-entry body of `mutateManifest` from `src/utils.js`: delete
`build` when truthy, delete `enabled` when its type is not `undefined`,
set `singular = true` on `service`-typed entries.  Reading a property of a
`null` / `undefined` entry throws. -/
def mutateEntryE (v : JsValue) : Except Unit JsValue := do
  let b ← jsGetE v "build"
  let v1 := if jsTruthy b then
      (match v with
       | .vObj fs => .vObj (fs.erase "build")
       | w => w)
    else v
  let e ← jsGetE v1 "enabled"
  let v2 := if e ≠ .vUndef then
      (match v1 with
       | .vObj fs => .vObj (fs.erase "enabled")
       | w => w)
    else v1
  let t ← jsGetE v2 "type"
  if t = .vStr "service" then jsSetE v2 "singular" (.vBool true) else .ok v2

/-- `mutateManifest(packages)` from `src/utils.js`, on the field list of
the package mapping.  The initial `Object.assign({}, packages)` shallow
copy is the identity at value level (see `mutateManifestH` for the
reference-level account). -/
def mutateManifest : JsFields → Except Unit JsFields
  | .nil => .ok .nil
  | .cons k v tl => do
    let v2 ← mutateEntryE v
    let tl2 ← mutateManifest tl
    .ok (.cons k v2 tl2)

---------------------------------------------------------------------------
-- Reference-level (heap) account of mutateManifest, for the aliasing claim
---------------------------------------------------------------------------

/-- Heap lookup: the record stored at an address. -/
def heapGet (h : List (Nat × JsFields)) (a : Nat) : Option JsFields :=
  match h with
  | [] => none
  | (b, fs) :: tl => if b = a then some fs else heapGet tl a

/-- Heap update at an address. -/
def heapSet (h : List (Nat × JsFields)) (a : Nat) (fs : JsFields) :
    List (Nat × JsFields) :=
  match h with
  | [] => []
  | (b, old) :: tl => if b = a then (b, fs) :: heapSet tl a fs else (b, old) :: heapSet tl a fs

/-- Field-level entry mutation of `mutateManifest` (same three steps as
`mutateEntryE`, on a record that is known to be an object). -/
def mutateEntryFields (fs : JsFields) : JsFields :=
  let fs1 := if jsTruthy ((fs.lookup "build").getD .vUndef) then fs.erase "build" else fs
  let fs2 := if ((fs1.lookup "enabled").getD .vUndef) ≠ .vUndef then fs1.erase "enabled" else fs1
  if ((fs2.lookup "type").getD .vUndef) = .vStr "service" then fs2.set "singular" (.vBool true)
  else fs2

/-- Iterate `mutateManifest` over the entry addresses, mutating the heap
records in place. -/
def mutateAddrs (heap : List (Nat × JsFields)) : List (String × Nat) →
    Except Unit (List (Nat × JsFields))
  | [] => .ok heap
  | (_, a) :: tl =>
    match heapGet heap a with
    | some fs => mutateAddrs (heapSet heap a (mutateEntryFields fs)) tl
    | none => .error ()

/-- Reference-level `mutateManifest`: the package mapping is a list of
(name, address) pairs into a heap of metadata records.  The
`Object.assign({}, packages)` shallow copy produces a fresh top-level
mapping holding the same addresses; the per-entry mutations then update
the shared records through those addresses. -/
def mutateManifestH (heap : List (Nat × JsFields)) (pkgs : List (String × Nat)) :
    Except Unit (List (Nat × JsFields) × List (String × Nat)) :=
  (mutateAddrs heap pkgs).map (fun h2 => (h2, pkgs))

---------------------------------------------------------------------------
-- src/packages.js: readMetadataFile
---------------------------------------------------------------------------

/-- Asset-kind inference for a plain string preload entry, from
`readMetadataFile` in `src/packages.js`: unanchored regular-expression
tests `/\.js/`, `/\.css/`, `/\.html/` in that order, i.e. substring
matches, not file-extension matches. -/
def inferAssetType (s : String) : JsValue :=
  if containsSub s ".js" then .vStr "javascript"
  else if containsSub s ".css" then .vStr "stylesheet"
  else if containsSub s ".html" then .vStr "html"
  else .vNull

/-- The map body over the concatenated preload list: plain string entries
become `{src, type}` records, everything else is returned unchanged. -/
def normalizePreloadEntry (v : JsValue) : JsValue :=
  match v with
  | .vStr s => .vObj (.cons "src" (.vStr s) (.cons "type" (inferAssetType s) .nil))
  | w => w

/-- Map over array items. -/
def mapItems (f : JsValue → JsValue) : JsItems → JsItems
  | .nil => .nil
  | .cons x tl => .cons (f x) (mapItems f tl)

/-- `meta.preload || []` followed by `.concat(...).map(...)`: falsy
values give the empty list; a truthy non-array value throws before the
resolution completes (`.concat` / `.map` is not a function on it). -/
def preloadBase (v : JsValue) : Except Unit JsItems :=
  match v with
  | .vArr xs => .ok xs
  | w => if jsTruthy w then .error () else .ok .nil

/-- `(meta.sources || [])` as the argument of `Array.prototype.concat`:
falsy values contribute nothing, an array contributes its elements, any
other value is appended as a single element. -/
def sourcesExtra (v : JsValue) : JsItems :=
  match v with
  | .vArr xs => xs
  | w => if jsTruthy w then .cons w .nil else .nil

/-- `readMetadataFile(f, repo)` from `src/packages.js`.  `root` is the
ambient `ROOT`, `raw` is the parsed content of the metadata file (the
`fs.readJsonSync` result).  Derives the qualified name from the parent
and grandparent directory names (or the `repo` override when truthy),
stamps `_src`, `type`, `path`, `build`, `repo`, and normalizes the
concatenated `preload` / `sources` list. -/
def readMetadataFile (root : String) (f : String) (repoOpt : Option String)
    (raw : JsValue) : Except Unit JsValue := do
  let packageName := basename (dirname f)
  let packageRepo := basename (dirname (dirname f))
  let repo := match repoOpt with
    | some r => if r = "" then packageRepo else r
    | none => packageRepo
  let name := repo ++ "/" ++ packageName
  let m1 ← jsSetE raw "_src" (.vStr (dirname (replaceFirst f (root ++ "/") "")))
  let t ← jsGetE m1 "type"
  let m2 ← jsSetE m1 "type" (if jsTruthy t then t else .vStr "application")
  let m3 ← jsSetE m2 "path" (.vStr name)
  let b ← jsGetE m3 "build"
  let m4 ← jsSetE m3 "build" (if jsTruthy b then b else .vObj .nil)
  let m5 ← jsSetE m4 "repo" (.vStr repo)
  let p ← jsGetE m5 "preload"
  let s ← jsGetE m5 "sources"
  let pl ← preloadBase p
  let full := JsItems.append pl (sourcesExtra s)
  jsSetE m5 "preload" (.vArr (mapItems normalizePreloadEntry full))

---------------------------------------------------------------------------
-- Spine induction for the mutual list types, and lookup/set/erase lemmas
---------------------------------------------------------------------------

/-- Induction on the spine of a field list (the values are carried along
unchanged, which is all the lemmas below need). -/
theorem JsFields.fieldsSpineInd {motive : JsFields → Prop}
    (hnil : motive .nil)
    (hcons : ∀ (k : String) (v : JsValue) (tl : JsFields), motive tl → motive (.cons k v tl)) :
    ∀ fs, motive fs
  | .nil => hnil
  | .cons k v tl => hcons k v tl (JsFields.fieldsSpineInd hnil hcons tl)

/-- Induction on the spine of an item list. -/
theorem JsItems.itemsSpineInd {motive : JsItems → Prop}
    (hnil : motive .nil)
    (hcons : ∀ (v : JsValue) (tl : JsItems), motive tl → motive (.cons v tl)) :
    ∀ xs, motive xs
  | .nil => hnil
  | .cons v tl => hcons v tl (JsItems.itemsSpineInd hnil hcons tl)

theorem JsFields.lookup_set_self (fs : JsFields) (k : String) (v : JsValue) :
    (fs.set k v).lookup k = some v := by
  induction fs using JsFields.fieldsSpineInd with
  | hnil => simp [JsFields.set, JsFields.lookup]
  | hcons k2 w tl ih =>
    by_cases h : k2 = k <;> simp [JsFields.set, JsFields.lookup, h, ih]

theorem JsFields.lookup_set_other (fs : JsFields) (k k2 : String) (v : JsValue)
    (h : k ≠ k2) : (fs.set k v).lookup k2 = fs.lookup k2 := by
  induction fs using JsFields.fieldsSpineInd with
  | hnil => simp [JsFields.set, JsFields.lookup, h]
  | hcons k3 w tl ih =>
    by_cases h3 : k3 = k
    · subst h3
      simp [JsFields.set, JsFields.lookup, h]
    · by_cases h32 : k3 = k2 <;>
        simp [JsFields.set, JsFields.lookup, h3, h32, Ne.symm h, ih]

theorem JsFields.lookup_erase_self (fs : JsFields) (k : String) :
    (fs.erase k).lookup k = none := by
  induction fs using JsFields.fieldsSpineInd with
  | hnil => simp [JsFields.erase, JsFields.lookup]
  | hcons k2 w tl ih =>
    by_cases h : k2 = k <;> simp [JsFields.erase, JsFields.lookup, h, ih]

theorem JsFields.lookup_erase_other (fs : JsFields) (k k2 : String)
    (h : k ≠ k2) : (fs.erase k).lookup k2 = fs.lookup k2 := by
  induction fs using JsFields.fieldsSpineInd with
  | hnil => simp [JsFields.erase, JsFields.lookup]
  | hcons k3 w tl ih =>
    by_cases h3 : k3 = k
    · subst h3
      simp [JsFields.erase, JsFields.lookup, h, ih]
    · by_cases h32 : k3 = k2 <;>
        simp [JsFields.erase, JsFields.lookup, h3, h32, Ne.symm h, ih]

theorem heapGet_heapSet (h : List (Nat × JsFields)) (a : Nat) (fs : JsFields) (b : Nat) :
    heapGet (heapSet h a fs) b =
      if a = b then (heapGet h b).map (fun _ => fs) else heapGet h b := by
  induction h with
  | nil => simp [heapGet, heapSet]
  | cons p tl ih =>
    obtain ⟨c, old⟩ := p
    by_cases hca : c = a
    · subst hca
      by_cases hcb : c = b
      · subst hcb
        simp [heapGet, heapSet]
      · simp [heapGet, heapSet, hcb, ih]

    · by_cases hcb : c = b
      · subst hcb
        have hab : ¬ a = c := fun he => hca he.symm
        simp [heapGet, heapSet, hca, hab]
      · simp [heapGet, heapSet, hca, hcb, ih]


---------------------------------------------------------------------------
-- C10: the force-disable list is irrelevant for disabled descriptors
---------------------------------------------------------------------------

/-- C10: for every descriptor whose `enabled` field stringifies to
`"false"`, the result of `checkEnabledState` is independent of the
force-disable list: for any two force-disable lists and the same
force-enable list, `checkEnabledState` returns the same value. -/
theorem c10_checkEnabledState_ignores_disable_list
    (e d1 d2 : List String) (fs : JsFields)
    (hen : jsToString ((fs.lookup "enabled").getD .vUndef) = "false") :
    checkEnabledStateE e d1 (.vObj fs) = checkEnabledStateE e d2 (.vObj fs) := by
  unfold checkEnabledStateE
  cases hpv : (fs.lookup "path").getD .vUndef <;>
    simp [jsGetE, hpv, hen, Bind.bind, Except.bind]

/-- C10 witness: a concrete disabled descriptor, two distinct disable
lists, the same verdict. -/
theorem c10_witness :
    checkEnabledStateE ["default/Pkg"] ["x"]
      (.vObj (.cons "path" (.vStr "default/Pkg") (.cons "enabled" (.vBool false) .nil))) =
    checkEnabledStateE ["default/Pkg"] ["default/Pkg", "y"]
      (.vObj (.cons "path" (.vStr "default/Pkg") (.cons "enabled" (.vBool false) .nil))) :=
  c10_checkEnabledState_ignores_disable_list ["default/Pkg"] ["x"] ["default/Pkg", "y"]
    (.cons "path" (.vStr "default/Pkg") (.cons "enabled" (.vBool false) .nil)) (by decide)

---------------------------------------------------------------------------
-- C5: the enable/disable policy of checkEnabledState
---------------------------------------------------------------------------

/-- C5 counterexample: a descriptor whose `enabled` field is the array
`["false"]` is neither `false` nor `"false"`, so by the claim it is not
explicitly disabled and, with both force lists empty, should be kept; but
`String(["false"])` is `"false"`, so the code takes the disabled branch
and drops it. -/
theorem c5_counterexample :
    checkEnabledStateE [] []
      (.vObj (.cons "path" (.vStr "default/Pkg")
        (.cons "enabled" (.vArr (.cons (.vStr "false") .nil)) .nil))) = .ok false ∧
    (JsValue.vArr (.cons (.vStr "false") .nil) ≠ .vBool false) ∧
    (JsValue.vArr (.cons (.vStr "false") .nil) ≠ .vStr "false") :=
  ⟨rfl, by decide, by decide⟩

/-- C5 (amended): a descriptor counts as explicitly disabled exactly when
`String(enabled)` equals `"false"` (this covers `false` and `"false"`,
but also degenerate values such as `["false"]`).  Such a descriptor is
kept iff its short name or qualified name is in the force-enable list;
any other descriptor is dropped iff its short name or qualified name is
in the force-disable list. -/
theorem c5_enabled_policy (e d : List String) (fs : JsFields) (s : String)
    (hpath : fs.lookup "path" = some (.vStr s)) :
    (jsToString ((fs.lookup "enabled").getD .vUndef) = "false" →
      (checkEnabledStateE e d (.vObj fs) = .ok true ↔
        (memOpt ((jsSplitChar s '/').get? 1) e = true ∨ e.contains s = true))) ∧
    (jsToString ((fs.lookup "enabled").getD .vUndef) ≠ "false" →
      (checkEnabledStateE e d (.vObj fs) = .ok false ↔
        (memOpt ((jsSplitChar s '/').get? 1) d = true ∨ d.contains s = true))) := by
  constructor
  · intro hen
    unfold checkEnabledStateE
    simp only [jsGetE, hpath, Bind.bind, Except.bind, Option.getD_some]
    rw [if_pos hen]
    cases hm : memOpt ((jsSplitChar s '/').get? 1) e <;>
      cases hc : e.contains s <;> simp [hm, hc]
  · intro hen
    unfold checkEnabledStateE
    simp only [jsGetE, hpath, Bind.bind, Except.bind, Option.getD_some]
    rw [if_neg hen]
    cases hm : memOpt ((jsSplitChar s '/').get? 1) d <;>
      cases hc : d.contains s <;> simp [hm, hc]

/-- C5 witness: a disabled descriptor kept through a force-enable entry on
its short name, and an enabled descriptor dropped through a force-disable
entry on its qualified name. -/
theorem c5_witness :
    (checkEnabledStateE ["Pkg"] []
      (.vObj (.cons "path" (.vStr "default/Pkg") (.cons "enabled" (.vStr "false") .nil))) =
      .ok true) ∧
    (checkEnabledStateE [] ["other/Pkg"]
      (.vObj (.cons "path" (.vStr "other/Pkg") .nil)) = .ok false) := by
  constructor
  · exact ((c5_enabled_policy ["Pkg"] []
      (.cons "path" (.vStr "default/Pkg") (.cons "enabled" (.vStr "false") .nil))
      "default/Pkg" rfl).1 (by decide)).mpr (by decide)
  · exact ((c5_enabled_policy [] ["other/Pkg"]
      (.cons "path" (.vStr "other/Pkg") .nil)
      "other/Pkg" rfl).2 (by decide)).mpr (by decide)


---------------------------------------------------------------------------
-- C8 / C9: mutateManifest
---------------------------------------------------------------------------

theorem mutateEntryE_obj (g : JsFields) :
    mutateEntryE (.vObj g) = .ok (.vObj (mutateEntryFields g)) := by
  unfold mutateEntryE mutateEntryFields
  simp only [jsGetE, Bind.bind, Except.bind]
  by_cases hb : jsTruthy ((g.lookup "build").getD .vUndef) = true
  · simp [hb, jsGetE, Bind.bind, Except.bind]
    by_cases he : ((g.erase "build").lookup "enabled").getD .vUndef = .vUndef
    · simp [he, jsGetE, Bind.bind, Except.bind]
      by_cases ht : ((g.erase "build").lookup "type").getD .vUndef = .vStr "service"
      · simp [ht, jsSetE]
      · simp [ht]
    · simp [he, jsGetE, Bind.bind, Except.bind]
      by_cases ht : (((g.erase "build").erase "enabled").lookup "type").getD .vUndef =
          .vStr "service"
      · simp [ht, jsSetE]
      · simp [ht]
  · simp [hb, jsGetE, Bind.bind, Except.bind]
    by_cases he : (g.lookup "enabled").getD .vUndef = .vUndef
    · simp [he, jsGetE, Bind.bind, Except.bind]
      by_cases ht : (g.lookup "type").getD .vUndef = .vStr "service"
      · simp [ht, jsSetE]
      · simp [ht]
    · simp [he, jsGetE, Bind.bind, Except.bind]
      by_cases ht : ((g.erase "enabled").lookup "type").getD .vUndef = .vStr "service"
      · simp [ht, jsSetE]
      · simp [ht]


/-- Conditional form of lookup-after-set. -/
theorem JsFields.lookup_set (fs : JsFields) (k2 k : String) (v : JsValue) :
    (fs.set k2 v).lookup k = if k2 = k then some v else fs.lookup k := by
  by_cases h : k2 = k
  · subst h
    simp [JsFields.lookup_set_self]
  · simp [h, JsFields.lookup_set_other fs k2 k v h]

/-- Conditional form of lookup-after-erase. -/
theorem JsFields.lookup_erase (fs : JsFields) (k2 k : String) :
    (fs.erase k2).lookup k = if k2 = k then none else fs.lookup k := by
  by_cases h : k2 = k
  · subst h
    simp [JsFields.lookup_erase_self]
  · simp [h, JsFields.lookup_erase_other fs k2 k h]

/-- C8 counterexample: an entry with `build: false` keeps its `build`
field, because the code only deletes `build` when it is truthy
(`if (packages[p].build)`); the claim asserts `build` is absent from
every returned entry. -/
theorem c8_counterexample :
    mutateManifest (.cons "p" (.vObj (.cons "build" (.vBool false) .nil)) .nil) =
      .ok (.cons "p" (.vObj (.cons "build" (.vBool false) .nil)) .nil) ∧
    (JsFields.cons "build" (.vBool false) .nil).lookup "build" = some (.vBool false) :=
  ⟨rfl, rfl⟩

/-- C8 (amended): per entry of the mapping, `mutateManifest` deletes
`build` exactly when it is truthy (a falsy `build` such as `false`, `0`
or `null` survives; in the server-manifest pipeline `build` is always a
truthy object because `readMetadataFile` defaults it to `{}`), deletes
`enabled` whenever it is present with a defined value, sets
`singular = true` exactly on entries whose `type` is `"service"`, and
leaves every other field unchanged. -/
theorem c8_mutateManifest_fields (g : JsFields) :
    mutateEntryE (.vObj g) = .ok (.vObj (mutateEntryFields g)) ∧
    (∀ (k : String) (tl : JsFields), mutateManifest (.cons k (.vObj g) tl) =
      (mutateManifest tl).map (fun tl2 => .cons k (.vObj (mutateEntryFields g)) tl2)) ∧
    (jsTruthy ((g.lookup "build").getD .vUndef) = true →
      (mutateEntryFields g).lookup "build" = none) ∧
    (jsTruthy ((g.lookup "build").getD .vUndef) = false →
      (mutateEntryFields g).lookup "build" = g.lookup "build") ∧
    ((mutateEntryFields g).lookup "enabled" = none ∨
      (mutateEntryFields g).lookup "enabled" = some .vUndef) ∧
    ((g.lookup "type").getD .vUndef = .vStr "service" →
      (mutateEntryFields g).lookup "singular" = some (.vBool true)) ∧
    ((g.lookup "type").getD .vUndef ≠ .vStr "service" →
      (mutateEntryFields g).lookup "singular" = g.lookup "singular") ∧
    (∀ k : String, k ≠ "build" → k ≠ "enabled" → k ≠ "singular" →
      (mutateEntryFields g).lookup k = g.lookup k) := by
  refine ⟨mutateEntryE_obj g, ?u1, ?u2, ?u3, ?u4, ?u5, ?u6, ?u7⟩
  · intro k tl
    cases htl : mutateManifest tl <;>
      simp [mutateManifest, mutateEntryE_obj g, htl, Bind.bind, Except.bind, Except.map]
  · intro hcond
    unfold mutateEntryFields
    split_ifs <;> (try simp_all [JsFields.lookup_set, JsFields.lookup_erase])
    all_goals (try (split_ifs <;> (try simp_all [JsFields.lookup_set, JsFields.lookup_erase])))
    all_goals (try (split_ifs <;> (try simp_all [JsFields.lookup_set, JsFields.lookup_erase])))
    all_goals (try simp_all [JsFields.lookup_set, JsFields.lookup_erase])
  · intro hcond
    unfold mutateEntryFields
    split_ifs <;> (try simp_all [JsFields.lookup_set, JsFields.lookup_erase])
    all_goals (try (split_ifs <;> (try simp_all [JsFields.lookup_set, JsFields.lookup_erase])))
    all_goals (try (split_ifs <;> (try simp_all [JsFields.lookup_set, JsFields.lookup_erase])))
    all_goals (try simp_all [JsFields.lookup_set, JsFields.lookup_erase])
  · unfold mutateEntryFields
    cases hev : g.lookup "enabled" with
    | none =>
      split_ifs <;> (try simp_all [JsFields.lookup_set, JsFields.lookup_erase])
      all_goals (try (split_ifs <;> (try simp_all [JsFields.lookup_set, JsFields.lookup_erase])))
      all_goals (try (split_ifs <;> (try simp_all [JsFields.lookup_set, JsFields.lookup_erase])))
      all_goals (try simp_all [JsFields.lookup_set, JsFields.lookup_erase])
    | some ev =>
      by_cases hu : ev = .vUndef
      · subst hu
        split_ifs <;> (try simp_all [JsFields.lookup_set, JsFields.lookup_erase])
        all_goals (try (split_ifs <;> (try simp_all [JsFields.lookup_set, JsFields.lookup_erase])))
        all_goals (try (split_ifs <;> (try simp_all [JsFields.lookup_set, JsFields.lookup_erase])))
        all_goals (try simp_all [JsFields.lookup_set, JsFields.lookup_erase])
      · split_ifs <;> (try simp_all [JsFields.lookup_set, JsFields.lookup_erase])
        all_goals (try (split_ifs <;> (try simp_all [JsFields.lookup_set, JsFields.lookup_erase])))
        all_goals (try (split_ifs <;> (try simp_all [JsFields.lookup_set, JsFields.lookup_erase])))
        all_goals (try simp_all [JsFields.lookup_set, JsFields.lookup_erase])
  · intro hcond
    unfold mutateEntryFields
    split_ifs <;> (try simp_all [JsFields.lookup_set, JsFields.lookup_erase])
    all_goals (try (split_ifs <;> (try simp_all [JsFields.lookup_set, JsFields.lookup_erase])))
    all_goals (try (split_ifs <;> (try simp_all [JsFields.lookup_set, JsFields.lookup_erase])))
    all_goals (try simp_all [JsFields.lookup_set, JsFields.lookup_erase])
  · intro hcond
    unfold mutateEntryFields
    split_ifs <;> (try simp_all [JsFields.lookup_set, JsFields.lookup_erase])
    all_goals (try (split_ifs <;> (try simp_all [JsFields.lookup_set, JsFields.lookup_erase])))
    all_goals (try (split_ifs <;> (try simp_all [JsFields.lookup_set, JsFields.lookup_erase])))
    all_goals (try simp_all [JsFields.lookup_set, JsFields.lookup_erase])
  · intro k h1 h2 h3
    unfold mutateEntryFields
    split_ifs <;> (try simp_all [JsFields.lookup_set, JsFields.lookup_erase])
    all_goals (try (split_ifs <;> (try simp_all [JsFields.lookup_set, JsFields.lookup_erase])))
    all_goals (try (split_ifs <;> (try simp_all [JsFields.lookup_set, JsFields.lookup_erase])))
    all_goals (try simp_all [JsFields.lookup_set, JsFields.lookup_erase])
    all_goals (intro he; subst he; simp_all)


theorem mutateAddrs_spec :
    ∀ (pkgs : List (String × Nat)) (heap : List (Nat × JsFields)),
    (pkgs.map Prod.snd).Nodup →
    (∀ pa ∈ pkgs, heapGet heap pa.2 ≠ none) →
    ∃ h2, mutateAddrs heap pkgs = .ok h2 ∧
      (∀ pa ∈ pkgs, heapGet h2 pa.2 = (heapGet heap pa.2).map mutateEntryFields) ∧
      (∀ b : Nat, b ∉ pkgs.map Prod.snd → heapGet h2 b = heapGet heap b) := by
  intro pkgs
  induction pkgs with
  | nil =>
    intro heap hnd hall
    exact ⟨heap, rfl, by simp, fun b hb => rfl⟩
  | cons pa tl ih =>
    intro heap hnd hall
    obtain ⟨n0, a0⟩ := pa
    obtain ⟨fs0, hfs0⟩ : ∃ fs0, heapGet heap a0 = some fs0 := by
      cases hg : heapGet heap a0 with
      | none => exact absurd hg (hall (n0, a0) (List.mem_cons_self _ _))
      | some fs0 => exact ⟨fs0, rfl⟩
    have hnd2 : (tl.map Prod.snd).Nodup := by
      simp only [List.map_cons, List.nodup_cons] at hnd
      exact hnd.2
    have ha0tl : a0 ∉ tl.map Prod.snd := by
      simp only [List.map_cons, List.nodup_cons] at hnd
      exact hnd.1
    have hall2 : ∀ pb ∈ tl, heapGet (heapSet heap a0 (mutateEntryFields fs0)) pb.2 ≠ none := by
      intro pb hpb
      rw [heapGet_heapSet]
      by_cases hab : a0 = pb.2
      · rw [if_pos hab, ← hab, hfs0]
        simp
      · rw [if_neg hab]
        exact hall pb (List.mem_cons_of_mem _ hpb)
    obtain ⟨h2, hrun, hmut, hrest⟩ := ih (heapSet heap a0 (mutateEntryFields fs0)) hnd2 hall2
    refine ⟨h2, ?_, ?_, ?_⟩
    · simp only [mutateAddrs, hfs0]
      exact hrun
    · intro pb hpb
      rcases List.mem_cons.mp hpb with he | htl2
      · subst he
        have : heapGet h2 a0 = heapGet (heapSet heap a0 (mutateEntryFields fs0)) a0 :=
          hrest a0 ha0tl
        rw [this, heapGet_heapSet, if_pos rfl, hfs0]
        simp [hfs0]
      · have := hmut pb htl2
        rw [this, heapGet_heapSet]
        by_cases hab : a0 = pb.2
        · subst hab
          exact absurd (List.mem_map_of_mem Prod.snd htl2) ha0tl
        · rw [if_neg hab]
    · intro b hb
      have hb2 : b ∉ tl.map Prod.snd := by
        intro hmem
        exact hb (by simp [hmem])
      have hba : ¬ a0 = b := by
        intro he
        subst he
        exact hb (by simp)
      rw [hrest b hb2, heapGet_heapSet, if_neg hba]

/-- C9: `mutateManifest` copies only the top-level mapping.  In the
reference-level model (`mutateManifestH`), the returned mapping is the
input mapping itself — every entry points at the same record address —
and the records at those shared addresses have been mutated in place
(`build` / `enabled` deleted, `singular` set), so the caller's original
package metadata objects are mutated too. -/
theorem c9_mutateManifest_shallow_copy_aliases
    (heap : List (Nat × JsFields)) (pkgs : List (String × Nat))
    (hnd : (pkgs.map Prod.snd).Nodup)
    (hall : ∀ pa ∈ pkgs, heapGet heap pa.2 ≠ none) :
    ∃ h2, mutateManifestH heap pkgs = .ok (h2, pkgs) ∧
      ∀ pa ∈ pkgs, heapGet h2 pa.2 = (heapGet heap pa.2).map mutateEntryFields := by
  obtain ⟨h2, hrun, hmut, hrest⟩ := mutateAddrs_spec pkgs heap hnd hall
  exact ⟨h2, by simp [mutateManifestH, hrun, Except.map], hmut⟩

/-- C9 witness: one service entry at address 0; the original mapping still
reaches the mutated record through the same address. -/
theorem c9_witness :
    ∃ h2, mutateManifestH [(0, .cons "type" (.vStr "service") .nil)] [("default/Pkg", 0)] =
        .ok (h2, [("default/Pkg", 0)]) ∧
      ∀ pa ∈ [("default/Pkg", (0 : Nat))],
        heapGet h2 pa.2 =
          (heapGet [(0, .cons "type" (.vStr "service") .nil)] pa.2).map mutateEntryFields :=
  c9_mutateManifest_shallow_copy_aliases
    [(0, .cons "type" (.vStr "service") .nil)] [("default/Pkg", 0)]
    (by decide) (by decide)


---------------------------------------------------------------------------
-- C7: preload asset-kind inference in readMetadataFile
---------------------------------------------------------------------------

/-- C7 counterexample: the entry `"data.json"` has file extension
`.json`, which is none of `.js` / `.css` / `.html`, so by the claim its
type must stay unset; but the code tests the unanchored pattern
`/\.js/`, which matches inside `.json`, so the entry is tagged
`javascript`. -/
theorem c7_counterexample :
    readMetadataFile "/R" "/R/src/packages/default/Pkg/metadata.json" (some "default")
      (.vObj (.cons "preload" (.vArr (.cons (.vStr "data.json") .nil)) .nil)) =
      .ok (.vObj
        (.cons "preload"
          (.vArr (.cons
            (.vObj (.cons "src" (.vStr "data.json")
              (.cons "type" (.vStr "javascript") .nil))) .nil))
          (.cons "_src" (.vStr "src/packages/default/Pkg")
            (.cons "type" (.vStr "application")
              (.cons "path" (.vStr "default/Pkg")
                (.cons "build" (.vObj .nil)
                  (.cons "repo" (.vStr "default") .nil))))))) ∧
    strEndsWith "data.json" ".js" = false ∧
    strEndsWith "data.json" ".css" = false ∧
    strEndsWith "data.json" ".html" = false ∧
    (JsValue.vStr "javascript" ≠ .vNull) :=
  ⟨rfl, rfl, rfl, rfl, by decide⟩

/-- C7 (amended): for every plain-string entry of the concatenated
`preload` / `sources` list, `readMetadataFile` infers the asset kind by
unanchored substring matching, in order: a `.js` substring anywhere gives
`javascript`, else `.css` gives `stylesheet`, else `.html` gives `html`,
else the type is null; entries that are not strings are returned
unchanged.  (In particular `"data.json"` gets `javascript` even though
its extension is `.json`.) -/
theorem c7_preload_inference (root f : String) (repoOpt : Option String)
    (g : JsFields) (plist slist : JsItems)
    (hp : g.lookup "preload" = some (.vArr plist))
    (hs : sourcesExtra ((g.lookup "sources").getD .vUndef) = slist) :
    (∃ m : JsFields, readMetadataFile root f repoOpt (.vObj g) = .ok (.vObj m) ∧
      m.lookup "preload" =
        some (.vArr (mapItems normalizePreloadEntry (JsItems.append plist slist)))) ∧
    (∀ s, normalizePreloadEntry (.vStr s) =
      .vObj (.cons "src" (.vStr s) (.cons "type" (inferAssetType s) .nil))) ∧
    (∀ s, containsSub s ".js" = true → inferAssetType s = .vStr "javascript") ∧
    (∀ s, containsSub s ".js" = false → containsSub s ".css" = true →
      inferAssetType s = .vStr "stylesheet") ∧
    (∀ s, containsSub s ".js" = false → containsSub s ".css" = false →
      containsSub s ".html" = true → inferAssetType s = .vStr "html") ∧
    (∀ s, containsSub s ".js" = false → containsSub s ".css" = false →
      containsSub s ".html" = false → inferAssetType s = .vNull) ∧
    (∀ v : JsValue, (∀ s, v ≠ .vStr s) → normalizePreloadEntry v = v) := by
  refine ⟨?v1, fun s => rfl, ?v2, ?v3, ?v4, ?v5, ?v6⟩
  · unfold readMetadataFile
    simp only [jsGetE, jsSetE, Bind.bind, Except.bind, JsFields.lookup_set,
      (by decide : ("_src" : String) ≠ "preload"),
      (by decide : ("type" : String) ≠ "preload"),
      (by decide : ("path" : String) ≠ "preload"),
      (by decide : ("build" : String) ≠ "preload"),
      (by decide : ("repo" : String) ≠ "preload"),
      (by decide : ("_src" : String) ≠ "sources"),
      (by decide : ("type" : String) ≠ "sources"),
      (by decide : ("path" : String) ≠ "sources"),
      (by decide : ("build" : String) ≠ "sources"),
      (by decide : ("repo" : String) ≠ "sources"),
      hp, hs, preloadBase, Option.getD_some, ite_false, ite_true]
    exact ⟨_, rfl, JsFields.lookup_set_self _ _ _⟩
  · intro s h
    simp [inferAssetType, h]
  · intro s h1 h2
    simp [inferAssetType, h1, h2]
  · intro s h1 h2 h3
    simp [inferAssetType, h1, h2, h3]
  · intro s h1 h2 h3
    simp [inferAssetType, h1, h2, h3]
  · intro v hv
    cases v <;> simp [normalizePreloadEntry]
    exact absurd rfl (hv _)


/-- C7 witness: a metadata file with one `preload` entry and one legacy
`sources` entry; the normalized list is the concatenation, entry-wise
normalized. -/
theorem c7_witness :
    ∃ m : JsFields,
      readMetadataFile "/R" "/R/src/packages/default/Pkg/metadata.json" (some "default")
        (.vObj (.cons "preload" (.vArr (.cons (.vStr "a.js") .nil))
          (.cons "sources" (.vArr (.cons (.vStr "b.css") .nil)) .nil))) = .ok (.vObj m) ∧
      m.lookup "preload" = some (.vArr (mapItems normalizePreloadEntry
        (JsItems.append (.cons (.vStr "a.js") .nil) (.cons (.vStr "b.css") .nil)))) :=
  (c7_preload_inference "/R" "/R/src/packages/default/Pkg/metadata.json" (some "default")
    (.cons "preload" (.vArr (.cons (.vStr "a.js") .nil))
      (.cons "sources" (.vArr (.cons (.vStr "b.css") .nil)) .nil))
    (.cons (.vStr "a.js") .nil) (.cons (.vStr "b.css") .nil) rfl rfl).1


/-- C8 witness: a service entry with a truthy `build` object loses
`build` and gains `singular`. -/
theorem c8_witness :
    (mutateEntryFields (.cons "build" (.vObj .nil)
      (.cons "type" (.vStr "service") .nil))).lookup "build" = none ∧
    (mutateEntryFields (.cons "build" (.vObj .nil)
      (.cons "type" (.vStr "service") .nil))).lookup "singular" = some (.vBool true) :=
  ⟨(c8_mutateManifest_fields (.cons "build" (.vObj .nil)
      (.cons "type" (.vStr "service") .nil))).2.2.1 (by decide),
   (c8_mutateManifest_fields (.cons "build" (.vObj .nil)
      (.cons "type" (.vStr "service") .nil))).2.2.2.2.2.1 (by decide)⟩

---------------------------------------------------------------------------
-- JSON serialization (JSON.stringify without indentation)
---------------------------------------------------------------------------

/-- One hexadecimal digit. -/
def hexDigit (n : Nat) : Char :=
  if n < 10 then Char.ofNat (48 + n) else Char.ofNat (87 + n)

/-- JSON escaping of one character inside a string literal. -/
def escapeChar (c : Char) : List Char :=
  if c = '"' then ['\x5c', '"']
  else if c = '\x5c' then ['\x5c', '\x5c']
  else if c = '\x08' then ['\x5c', 'b']
  else if c = '\x0c' then ['\x5c', 'f']
  else if c = '\n' then ['\x5c', 'n']
  else if c = '\x0d' then ['\x5c', 'r']
  else if c = '\t' then ['\x5c', 't']
  else if c.toNat < 32 then
    ['\x5c', 'u', '0', '0', hexDigit (c.toNat / 16), hexDigit (c.toNat % 16)]
  else [c]

/-- JSON escaping of a string body. -/
def escapeList : List Char → List Char
  | [] => []
  | c :: tl => escapeChar c ++ escapeList tl

/-- Does the field list contribute at least one serialized member
(`undefined`-valued fields are omitted by `JSON.stringify`)? -/
def hasJsonField : JsFields → Bool
  | .nil => false
  | .cons _ v tl => if v = .vUndef then hasJsonField tl else true

mutual
/-- `JSON.stringify(v)` (no indentation).  A top-level `undefined` has no
JSON text (the callers guard against it); inside arrays it prints as
`null`, inside objects the field is omitted. -/
def stringifyJ : JsValue → List Char
  | .vUndef => []
  | .vNull => ['n', 'u', 'l', 'l']
  | .vBool b => if b then ['t', 'r', 'u', 'e'] else ['f', 'a', 'l', 's', 'e']
  | .vNum n => intDecimal n
  | .vStr s => '"' :: (escapeList s.data ++ ['"'])
  | .vArr xs => '[' :: (stringifyItems xs ++ [']'])
  | .vObj fs => '{' :: (stringifyFields fs ++ ['}'])

/-- Array elements, comma separated; `undefined` elements print as
`null`. -/
def stringifyItems : JsItems → List Char
  | .nil => []
  | .cons x tl =>
    (if x = .vUndef then ['n', 'u', 'l', 'l'] else stringifyJ x) ++
    (if tl = .nil then [] else ',' :: stringifyItems tl)

/-- Object members, comma separated; `undefined`-valued fields are
omitted. -/
def stringifyFields : JsFields → List Char
  | .nil => []
  | .cons k v tl =>
    if v = .vUndef then stringifyFields tl
    else
      '"' :: (escapeList k.data ++ ['"', ':'] ++ stringifyJ v) ++
      (if hasJsonField tl then [','] else []) ++ stringifyFields tl
end

/-- String wrapper for `stringifyJ`. -/
def jsonStringify (v : JsValue) : String := String.mk (stringifyJ v)

/-- Characters that may appear unescaped-or-simply-escaped in this model:
everything from space upward (control characters would be printed as
`\u00XX`, which the parser model does not read back). -/
def cleanChars (cs : List Char) : Bool := cs.all (fun c => 32 ≤ c.toNat)

mutual
/-- A value in the JSON-roundtrip fragment of the model: no `undefined`,
no control characters in strings or keys, unique keys per object. -/
def cleanJ : JsValue → Bool
  | .vUndef => false
  | .vNull => true
  | .vBool _ => true
  | .vNum _ => true
  | .vStr s => cleanChars s.data
  | .vArr xs => cleanItems xs
  | .vObj fs => cleanFields fs

/-- Clean array elements. -/
def cleanItems : JsItems → Bool
  | .nil => true
  | .cons x tl => cleanJ x && cleanItems tl

/-- Clean fields: clean keys and values, and no duplicate keys. -/
def cleanFields : JsFields → Bool
  | .nil => true
  | .cons k v tl => cleanChars k.data && cleanJ v && !(tl.hasKey k) && cleanFields tl
end

mutual
/-- Structural size used as parser fuel (counts constructors, not
characters). -/
def jsSize : JsValue → Nat
  | .vArr xs => 1 + itemsSize xs
  | .vObj fs => 1 + fieldsSize fs
  | _ => 1

/-- Size of array elements. -/
def itemsSize : JsItems → Nat
  | .nil => 0
  | .cons v tl => 1 + jsSize v + itemsSize tl

/-- Size of object fields. -/
def fieldsSize : JsFields → Nat
  | .nil => 0
  | .cons _ v tl => 1 + jsSize v + fieldsSize tl
end

---------------------------------------------------------------------------
-- JSON parsing (JSON.parse, integer numbers only)
---------------------------------------------------------------------------

/-- JSON whitespace. -/
def isJsonWs (c : Char) : Bool := c = ' ' || c = '\t' || c = '\n' || c = '\x0d'

/-- Skip leading JSON whitespace. -/
def skipWs : List Char → List Char
  | [] => []
  | c :: tl => if isJsonWs c then skipWs tl else c :: tl

/-- Value of one hex digit, if any. -/
def hexVal (c : Char) : Option Nat :=
  if 48 ≤ c.toNat && c.toNat ≤ 57 then some (c.toNat - 48)
  else if 97 ≤ c.toNat && c.toNat ≤ 102 then some (c.toNat - 87)
  else if 65 ≤ c.toNat && c.toNat ≤ 70 then some (c.toNat - 55)
  else none

/-- Decoded character of a single-letter JSON escape, if any. -/
def decodeEsc (e : Char) : Option Char :=
  if e = '"' then some '"'
  else if e = '\x5c' then some '\x5c'
  else if e = '/' then some '/'
  else if e = 'b' then some '\x08'
  else if e = 'f' then some '\x0c'
  else if e = 'n' then some '\n'
  else if e = 'r' then some '\x0d'
  else if e = 't' then some '\t'
  else none

mutual
/-- Parse a JSON string body up to the closing quote, decoding escapes.
Raw control characters are rejected, as `JSON.parse` does. -/
def parseStrBody : List Char → Option (List Char × List Char)
  | [] => none
  | c :: tl =>
    if c = '"' then some ([], tl)
    else if c = '\x5c' then parseEsc tl
    else if c.toNat < 32 then none
    else (parseStrBody tl).map (fun p => (c :: p.1, p.2))

/-- Parse the remainder of a string body after a backslash. -/
def parseEsc : List Char → Option (List Char × List Char)
  | [] => none
  | e :: tl2 =>
    if e = 'u' then parseHexEsc tl2
    else
      match decodeEsc e with
      | some d => (parseStrBody tl2).map (fun p => (d :: p.1, p.2))
      | none => none

/-- Parse the remainder of a string body after a backslash-u. -/
def parseHexEsc : List Char → Option (List Char × List Char)
  | h1 :: h2 :: h3 :: h4 :: tl3 =>
    (match hexVal h1, hexVal h2, hexVal h3, hexVal h4 with
     | some a, some b, some cc, some dd =>
       (parseStrBody tl3).map
         (fun p => (Char.ofNat (((a * 16 + b) * 16 + cc) * 16 + dd) :: p.1, p.2))
     | _, _, _, _ => none)
  | _ => none
end

/-- Take the leading run of decimal digits. -/
def takeDigits : List Char → (List Char × List Char)
  | [] => ([], [])
  | c :: tl =>
    if isDigitChar c then
      (let p := takeDigits tl
       (c :: p.1, p.2))
    else ([], c :: tl)

/-- Numeric value of a digit run. -/
def natOfDigits (ds : List Char) : Nat :=
  ds.foldl (fun n c => n * 10 + (c.toNat - 48)) 0

/-- Parse a JSON number.  Only integers are modelled: a fractional part or
an exponent makes the parse fail (non-integer floats are outside this
embedding).  Leading-zero rejection is not modelled (the serializer never
emits leading zeros). -/
def parseNum (cs : List Char) : Option (JsValue × List Char) :=
  let cs2 := if cs.head? = some '-' then cs.tail else cs
  let td := takeDigits cs2
  if td.1 = [] then none
  else
    let value : JsValue :=
      .vNum (if cs.head? = some '-' then -(natOfDigits td.1 : Int) else (natOfDigits td.1 : Int))
    match td.2 with
    | c :: _ =>
      if isDigitChar c || c = '.' || c = 'e' || c = 'E' then none
      else some (value, td.2)
    | [] => some (value, [])

mutual
/-- Parse one JSON value (fueled on nesting structure). -/
def parseValF : Nat → List Char → Option (JsValue × List Char)
  | 0, _ => none
  | Nat.succ f, cs =>
    match skipWs cs with
    | [] => none
    | c :: tl =>
      if c = '{' then
        (if (skipWs tl).head? = some '}' then some (.vObj .nil, (skipWs tl).tail)
         else parseMembersF f (skipWs tl) .nil)
      else if c = '[' then
        (if (skipWs tl).head? = some ']' then some (.vArr .nil, (skipWs tl).tail)
         else parseElemsF f (skipWs tl) .nil)
      else if c = '"' then
        (parseStrBody tl).map (fun p => (.vStr (String.mk p.1), p.2))
      else if c = 't' then
        (match tl with
         | 'r' :: 'u' :: 'e' :: r => some (.vBool true, r)
         | _ => none)
      else if c = 'f' then
        (match tl with
         | 'a' :: 'l' :: 's' :: 'e' :: r => some (.vBool false, r)
         | _ => none)
      else if c = 'n' then
        (match tl with
         | 'u' :: 'l' :: 'l' :: r => some (.vNull, r)
         | _ => none)
      else parseNum (c :: tl)

/-- Parse the members of a non-empty object; duplicate keys follow
`JSON.parse` (the last occurrence wins, via `JsFields.set`). -/
def parseMembersF : Nat → List Char → JsFields → Option (JsValue × List Char)
  | 0, _, _ => none
  | Nat.succ f, cs, acc =>
    match skipWs cs with
    | '"' :: tl =>
      (match parseStrBody tl with
       | none => none
       | some (k, r1) =>
         (match skipWs r1 with
          | ':' :: r2 =>
            (match parseValF f r2 with
             | none => none
             | some (v, r3) =>
               (match skipWs r3 with
                | ',' :: r4 => parseMembersF f r4 (acc.set (String.mk k) v)
                | '}' :: r4 => some (.vObj (acc.set (String.mk k) v), r4)
                | _ => none))
          | _ => none))
    | _ => none

/-- Parse the elements of a non-empty array. -/
def parseElemsF : Nat → List Char → JsItems → Option (JsValue × List Char)
  | 0, _, _ => none
  | Nat.succ f, cs, acc =>
    match parseValF f cs with
    | none => none
    | some (v, r1) =>
      (match skipWs r1 with
       | ',' :: r2 => parseElemsF f r2 (acc.append (.cons v .nil))
       | ']' :: r2 => some (.vArr (acc.append (.cons v .nil)), r2)
       | _ => none)
end

/-- `JSON.parse(s)`: parse one value, require only whitespace after it.
`none` is a thrown `SyntaxError`. -/
def jsonParse (s : String) : Option JsValue :=
  match parseValF (s.data.length + 1) s.data with
  | some (v, rest) => if skipWs rest = [] then some v else none
  | none => none

example : jsonParse (String.mk ['[', '1', ',', ' ', '\x7b', '"', 'a', '"', ':', ' ',
    'n', 'u', 'l', 'l', '\x7d', ']']) =
    some (.vArr (.cons (.vNum 1) (.cons (.vObj (.cons "a" .vNull .nil)) .nil))) := by decide


---------------------------------------------------------------------------
-- Decimal printing reads back correctly
---------------------------------------------------------------------------

theorem isDigit_digitChar (d : Nat) (h : d < 10) :
    isDigitChar (Char.ofNat (48 + d)) = true := by
  interval_cases d <;> decide

theorem val_digitChar (d : Nat) (h : d < 10) :
    (Char.ofNat (48 + d)).toNat - 48 = d := by
  interval_cases d <;> decide

theorem natDecimalGo_all_digits (fuel : Nat) :
    ∀ n, (natDecimalGo fuel n).all isDigitChar = true := by
  induction fuel with
  | zero => intro n; simp [natDecimalGo]
  | succ f ih =>
    intro n
    by_cases h : n < 10
    · simp [natDecimalGo, h, isDigit_digitChar n h]
    · simp only [natDecimalGo, if_neg h, List.all_append]
      simp [ih (n / 10), isDigit_digitChar (n % 10) (Nat.mod_lt _ (by omega))]

theorem natDecimalGo_ne_nil (fuel n : Nat) (h : n < fuel) :
    natDecimalGo fuel n ≠ [] := by
  cases fuel with
  | zero => omega
  | succ f =>
    by_cases h10 : n < 10 <;> simp [natDecimalGo, h10]

theorem natOfDigits_append_one (ds : List Char) (c : Char) :
    natOfDigits (ds ++ [c]) = natOfDigits ds * 10 + (c.toNat - 48) := by
  simp [natOfDigits, List.foldl_append]

theorem natOfDigits_natDecimalGo (fuel : Nat) :
    ∀ n, n < fuel → natOfDigits (natDecimalGo fuel n) = n := by
  induction fuel with
  | zero => intro n h; omega
  | succ f ih =>
    intro n h
    by_cases h10 : n < 10
    · simp [natDecimalGo, h10, natOfDigits, val_digitChar n h10]
    · have hdiv : n / 10 < f := by omega
      simp only [natDecimalGo, if_neg h10, natOfDigits_append_one, ih (n / 10) hdiv,
        val_digitChar (n % 10) (Nat.mod_lt _ (by omega))]
      omega

theorem natDecimal_all_digits (n : Nat) : (natDecimal n).all isDigitChar = true :=
  natDecimalGo_all_digits (n + 1) n

theorem natDecimal_ne_nil (n : Nat) : natDecimal n ≠ [] :=
  natDecimalGo_ne_nil (n + 1) n (by omega)

theorem natOfDigits_natDecimal (n : Nat) : natOfDigits (natDecimal n) = n :=
  natOfDigits_natDecimalGo (n + 1) n (by omega)

theorem takeDigits_append (digs suffix : List Char)
    (hall : digs.all isDigitChar = true)
    (hrest : ∀ c, suffix.head? = some c → isDigitChar c = false) :
    takeDigits (digs ++ suffix) = (digs, suffix) := by
  induction digs with
  | nil =>
    cases suffix with
    | nil => rfl
    | cons c tl => simp [takeDigits, hrest c rfl]
  | cons c tl ih =>
    simp only [List.all_cons, Bool.and_eq_true] at hall
    simp [takeDigits, hall.1, ih hall.2]

/-- The character (if any) that follows a serialized number must not
extend the number. -/
def numBoundary : List Char → Bool
  | [] => true
  | c :: _ => !(isDigitChar c || c = '.' || c = 'e' || c = 'E')

theorem digit_ne_of_not_digit (x : Char) (hx : isDigitChar x = true)
    (y : Char) (hy : isDigitChar y = false) : x ≠ y := by
  intro he
  subst he
  rw [hx] at hy
  exact Bool.noConfusion hy

theorem parseNum_intDecimal (n : Int) (rest : List Char)
    (hb : numBoundary rest = true) :
    parseNum (intDecimal n ++ rest) = some (.vNum n, rest) := by
  have hbc : ∀ c tl2, rest = c :: tl2 →
      (isDigitChar c || c = '.' || c = 'e' || c = 'E') = false := by
    intro c tl2 he
    subst he
    simpa [numBoundary] using hb
  have hrest : ∀ c, rest.head? = some c → isDigitChar c = false := by
    intro c hc
    cases rest with
    | nil => simp at hc
    | cons c0 tl =>
      simp at hc
      subst hc
      have := hbc c0 tl rfl
      simp only [Bool.or_eq_false_iff] at this
      exact this.1.1.1
  obtain ⟨d, ds, heq⟩ : ∃ d ds, natDecimal n.natAbs = d :: ds := by
    cases hq : natDecimal n.natAbs with
    | nil => exact absurd hq (natDecimal_ne_nil _)
    | cons d ds => exact ⟨d, ds, rfl⟩
  have hdd : isDigitChar d = true := by
    have := natDecimal_all_digits n.natAbs
    rw [heq] at this
    simp only [List.all_cons, Bool.and_eq_true] at this
    exact this.1
  have hdm : d ≠ '-' := digit_ne_of_not_digit d hdd '-' (by decide)
  have htake : takeDigits (natDecimal n.natAbs ++ rest) = (natDecimal n.natAbs, rest) :=
    takeDigits_append _ _ (natDecimal_all_digits _) hrest
  have hval : natOfDigits (d :: ds) = n.natAbs := by
    rw [← heq, natOfDigits_natDecimal]
  by_cases hneg : n < 0
  · have habs : -((n.natAbs : Int)) = n := by omega
    have hhead : (intDecimal n ++ rest).head? = some '-' := by
      simp [intDecimal, if_pos hneg]
    have htail : (intDecimal n ++ rest).tail = natDecimal n.natAbs ++ rest := by
      simp [intDecimal, if_pos hneg]
    simp only [parseNum, hhead, if_pos rfl, ite_true, htail, htake]
    rw [heq]
    cases rest with
    | nil => simp [hval, habs, abs_of_neg hneg, ← heq, natDecimal_ne_nil, natOfDigits_natDecimal]
    | cons c tl =>
      simp [hval, habs, abs_of_neg hneg, hbc c tl rfl, ← heq, natDecimal_ne_nil,
        natOfDigits_natDecimal]
  · have habs : ((n.natAbs : Int)) = n := by omega
    have hid : intDecimal n ++ rest = natDecimal n.natAbs ++ rest := by
      simp [intDecimal, if_neg hneg]
    have hhead2 : (natDecimal n.natAbs ++ rest).head? = some d := by
      simp [heq]
    have hne : ((natDecimal n.natAbs ++ rest).head? = some '-') = False := by
      simp only [hhead2, Option.some.injEq, eq_iff_iff, iff_false]
      exact fun hc => hdm hc
    have hhead3 : (natDecimal n.natAbs).head? = some d := by
      rw [heq]
      rfl
    have hne2 : ((natDecimal n.natAbs).head? = some '-') = False := by
      simp only [hhead3, Option.some.injEq, eq_iff_iff, iff_false]
      exact fun hc => hdm hc
    have htake2 : takeDigits (natDecimal n.natAbs) = (natDecimal n.natAbs, []) := by
      have h0 := takeDigits_append (natDecimal n.natAbs) [] (natDecimal_all_digits _)
        (by intro c hc; simp at hc)
      simpa using h0
    rw [hid]
    cases rest with
    | nil =>
      simp [parseNum, hne, hne2, htake, htake2, natDecimal_ne_nil, natOfDigits_natDecimal, habs]
    | cons c tl =>
      simp [parseNum, hne, hne2, htake, htake2, natDecimal_ne_nil, natOfDigits_natDecimal, habs,
        hbc c tl rfl]


theorem parseStrBody_escape (s : List Char) (rest : List Char)
    (hc : cleanChars s = true) :
    parseStrBody (escapeList s ++ '"' :: rest) = some (s, rest) := by
  induction s with
  | nil => simp [escapeList, parseStrBody]
  | cons c tl ih =>
    simp only [cleanChars, List.all_cons, Bool.and_eq_true] at hc
    obtain ⟨h32d, htl⟩ := hc
    have h32 : 32 ≤ c.toNat := by simpa using h32d
    have ihtl : parseStrBody (escapeList tl ++ '"' :: rest) = some (tl, rest) := by
      apply ih
      simpa [cleanChars] using htl
    by_cases hq : c = '"'
    · subst hq
      have hesc : escapeList ('"' :: tl) = '\x5c' :: '"' :: escapeList tl := rfl
      rw [hesc, List.cons_append, List.cons_append]
      simp [parseStrBody, parseEsc, decodeEsc, ihtl]
    · by_cases hbs : c = '\x5c'
      · subst hbs
        have hesc : escapeList ('\x5c' :: tl) = '\x5c' :: '\x5c' :: escapeList tl := rfl
        rw [hesc, List.cons_append, List.cons_append]
        simp [parseStrBody, parseEsc, decodeEsc, ihtl]
      · have hb8 : c ≠ '\x08' := by
          intro he
          subst he
          simp at h32
        have hbf : c ≠ '\x0c' := by
          intro he
          subst he
          simp at h32
        have hbn : c ≠ '\n' := by
          intro he
          subst he
          simp at h32
        have hbr : c ≠ '\x0d' := by
          intro he
          subst he
          simp at h32
        have hbt : c ≠ '\t' := by
          intro he
          subst he
          simp at h32
        have hlt : ¬ c.toNat < 32 := by omega
        have hesc : escapeList (c :: tl) = c :: escapeList tl := by
          simp [escapeList, escapeChar, hq, hbs, hb8, hbf, hbn, hbr, hbt, hlt]
        rw [hesc, List.cons_append]
        simp [parseStrBody, hq, hbs, hlt, ihtl]


---------------------------------------------------------------------------
-- JSON roundtrip: helper definitions and lemmas
---------------------------------------------------------------------------

/-- Fold of property assignments, as `parseMembersF` accumulates members. -/
def JsFields.setAll : JsFields → JsFields → JsFields
  | acc, .nil => acc
  | acc, .cons k v tl => JsFields.setAll (acc.set k v) tl

/-- Plain concatenation of field lists. -/
def JsFields.catF : JsFields → JsFields → JsFields
  | .nil, gs => gs
  | .cons k v tl, gs => .cons k v (JsFields.catF tl gs)

/-- No key of the second list occurs in the first. -/
def JsFields.keysDisjoint (acc : JsFields) : JsFields → Bool
  | .nil => true
  | .cons k _ tl => !(acc.hasKey k) && JsFields.keysDisjoint acc tl

theorem skipWs_cons_not_ws (c : Char) (h : isJsonWs c = false) (tl : List Char) :
    skipWs (c :: tl) = c :: tl := by
  simp [skipWs, h]

theorem JsItems.append_cons_nil (acc : JsItems) (x : JsValue) (tl : JsItems) :
    (acc.append (.cons x .nil)).append tl = acc.append (.cons x tl) := by
  induction acc using JsItems.itemsSpineInd with
  | hnil => rfl
  | hcons y ytl ih => simp [JsItems.append, ih]

theorem JsFields.hasKey_set (fs : JsFields) (k : String) (v : JsValue) (k2 : String) :
    (fs.set k v).hasKey k2 = (fs.hasKey k2 || k = k2) := by
  induction fs using JsFields.fieldsSpineInd with
  | hnil => simp [JsFields.set, JsFields.hasKey]
  | hcons k0 v0 tl ih =>
    by_cases h : k0 = k
    · subst h
      simp [JsFields.set, JsFields.hasKey]
      by_cases h2 : k0 = k2 <;> simp [h2]
    · simp [JsFields.set, h, JsFields.hasKey, ih, Bool.or_assoc]

theorem JsFields.set_not_has (acc : JsFields) (k : String) (v : JsValue)
    (h : acc.hasKey k = false) :
    acc.set k v = JsFields.catF acc (.cons k v .nil) := by
  induction acc using JsFields.fieldsSpineInd with
  | hnil => rfl
  | hcons k0 v0 tl ih =>
    simp only [JsFields.hasKey, Bool.or_eq_false_iff] at h
    obtain ⟨h1, h2⟩ := h
    have h1' : ¬ k0 = k := by
      intro he
      rw [he] at h1
      simp at h1
    simp [JsFields.set, h1', JsFields.catF, ih h2]

theorem JsFields.catF_assoc (a b c : JsFields) :
    JsFields.catF (JsFields.catF a b) c = JsFields.catF a (JsFields.catF b c) := by
  induction a using JsFields.fieldsSpineInd with
  | hnil => rfl
  | hcons k v tl ih => simp [JsFields.catF, ih]

theorem JsFields.keysDisjoint_set (acc : JsFields) (k : String) (v : JsValue) :
    ∀ tl : JsFields, JsFields.keysDisjoint acc tl = true → tl.hasKey k = false →
      JsFields.keysDisjoint (acc.set k v) tl = true := by
  intro tl
  induction tl using JsFields.fieldsSpineInd with
  | hnil => intro _ _; rfl
  | hcons k0 v0 ttl ih =>
    intro hd hk
    simp only [JsFields.keysDisjoint, Bool.and_eq_true, Bool.not_eq_true'] at hd ⊢
    simp only [JsFields.hasKey, Bool.or_eq_false_iff] at hk
    refine ⟨?_, ih hd.2 hk.2⟩
    rw [JsFields.hasKey_set, hd.1]
    have : ¬ k = k0 := by
      intro he
      rw [he] at hk
      simp at hk
    simp [this]

theorem JsFields.catF_nil_right (a : JsFields) : JsFields.catF a .nil = a := by
  induction a using JsFields.fieldsSpineInd with
  | hnil => rfl
  | hcons k v tl ih => simp [JsFields.catF, ih]

theorem JsFields.setAll_catF : ∀ (fs : JsFields) (acc : JsFields),
    cleanFields fs = true → JsFields.keysDisjoint acc fs = true →
    JsFields.setAll acc fs = JsFields.catF acc fs := by
  intro fs
  induction fs using JsFields.fieldsSpineInd with
  | hnil =>
    intro acc _ _
    rw [JsFields.catF_nil_right]
    rfl
  | hcons k v tl ih =>
    intro acc hc hd
    simp only [cleanFields, Bool.and_eq_true, Bool.not_eq_true'] at hc
    obtain ⟨⟨⟨hck, hcv⟩, hnk⟩, hctl⟩ := hc
    simp only [JsFields.keysDisjoint, Bool.and_eq_true, Bool.not_eq_true'] at hd
    have step : JsFields.setAll acc (.cons k v tl) = JsFields.setAll (acc.set k v) tl := rfl
    rw [step, ih (acc.set k v) hctl (JsFields.keysDisjoint_set acc k v tl hd.2 hnk)]
    rw [JsFields.set_not_has acc k v hd.1, JsFields.catF_assoc]
    rfl

theorem JsFields.keysDisjoint_nil_left (fs : JsFields) :
    JsFields.keysDisjoint .nil fs = true := by
  induction fs using JsFields.fieldsSpineInd with
  | hnil => rfl
  | hcons k v tl ih => simp [JsFields.keysDisjoint, JsFields.hasKey, ih]

theorem JsFields.setAll_nil_clean (fs : JsFields) (hc : cleanFields fs = true) :
    JsFields.setAll .nil fs = fs := by
  rw [JsFields.setAll_catF fs .nil hc (JsFields.keysDisjoint_nil_left fs)]
  rfl

theorem digit_not_ws (h : Char) (hd : isDigitChar h = true) : isJsonWs h = false := by
  have h1 : ¬ h = ' ' := by
    intro he
    rw [he] at hd
    exact absurd hd (by decide)
  have h2 : ¬ h = '\t' := by
    intro he
    rw [he] at hd
    exact absurd hd (by decide)
  have h3 : ¬ h = '\n' := by
    intro he
    rw [he] at hd
    exact absurd hd (by decide)
  have h4 : ¬ h = '\x0d' := by
    intro he
    rw [he] at hd
    exact absurd hd (by decide)
  simp [isJsonWs, h1, h2, h3, h4]

theorem cleanJ_ne_undef (x : JsValue) (hx : cleanJ x = true) : x ≠ .vUndef := by
  intro he
  rw [he] at hx
  exact Bool.noConfusion hx

/-- The serialized form of a clean value starts with a character that is
not whitespace and not a closing bracket. -/
theorem stringifyJ_head (x : JsValue) (hx : cleanJ x = true) :
    ∃ h t, stringifyJ x = h :: t ∧ isJsonWs h = false ∧ h ≠ ']' := by
  cases x with
  | vUndef => exact absurd hx (by decide)
  | vNull => exact ⟨'n', _, rfl, by decide, by decide⟩
  | vBool b =>
    cases b with
    | false => exact ⟨'f', _, rfl, by decide, by decide⟩
    | true => exact ⟨'t', _, rfl, by decide, by decide⟩
  | vNum n =>
    by_cases hneg : n < 0
    · exact ⟨'-', natDecimal n.natAbs, by simp [stringifyJ, intDecimal, hneg], by decide, by decide⟩
    · obtain ⟨h, t, hht⟩ := List.exists_cons_of_ne_nil (natDecimal_ne_nil n.natAbs)
      have hall := natDecimal_all_digits n.natAbs
      rw [hht] at hall
      simp only [List.all_cons, Bool.and_eq_true] at hall
      refine ⟨h, t, ?_, digit_not_ws h hall.1, digit_ne_of_not_digit h hall.1 ']' (by decide)⟩
      simp [stringifyJ, intDecimal, hneg, hht]
  | vStr s => exact ⟨'"', _, rfl, by decide, by decide⟩
  | vArr xs => exact ⟨'[', _, rfl, by decide, by decide⟩
  | vObj fs => exact ⟨'{', _, rfl, by decide, by decide⟩

theorem parseValF_open_brace (f : Nat) (T : List Char) :
    parseValF (Nat.succ f) ('{' :: T) =
      (if (skipWs T).head? = some '}' then some (.vObj .nil, (skipWs T).tail)
       else parseMembersF f (skipWs T) .nil) := by
  simp [parseValF, skipWs, isJsonWs]

theorem parseValF_open_bracket (f : Nat) (T : List Char) :
    parseValF (Nat.succ f) ('[' :: T) =
      (if (skipWs T).head? = some ']' then some (.vArr .nil, (skipWs T).tail)
       else parseElemsF f (skipWs T) .nil) := by
  simp [parseValF, skipWs, isJsonWs]

theorem parseValF_quote (f : Nat) (T : List Char) :
    parseValF (Nat.succ f) ('"' :: T) =
      (parseStrBody T).map (fun p => (.vStr (String.mk p.1), p.2)) := by
  simp [parseValF, skipWs, isJsonWs]

theorem parseValF_other (f : Nat) (c : Char) (tl : List Char)
    (hc : isJsonWs c = false ∧ c ≠ '\x7b' ∧ c ≠ '[' ∧ c ≠ '"' ∧
      c ≠ 't' ∧ c ≠ 'f' ∧ c ≠ 'n') :
    parseValF (Nat.succ f) (c :: tl) = parseNum (c :: tl) := by
  obtain ⟨hws, h1, h2, h3, h4, h5, h6⟩ := hc
  rw [parseValF, skipWs_cons_not_ws c hws tl]
  simp [h1, h2, h3, h4, h5, h6]

theorem jsSize_pos (v : JsValue) : 1 ≤ jsSize v := by
  cases v <;> simp [jsSize]

/-- Parsing inverts serialization: the three statements for values, array
elements and object members, proved together by induction on the fuel. -/
theorem parse_stringify_aux : ∀ f : Nat,
    (∀ v rest, cleanJ v = true → jsSize v ≤ f → numBoundary rest = true →
       parseValF f (stringifyJ v ++ rest) = some (v, rest)) ∧
    (∀ xs acc rest, cleanItems xs = true → xs ≠ .nil → itemsSize xs ≤ f →
       parseElemsF f (stringifyItems xs ++ ']' :: rest) acc =
         some (.vArr (acc.append xs), rest)) ∧
    (∀ fs acc rest, cleanFields fs = true → fs ≠ .nil → fieldsSize fs ≤ f →
       parseMembersF f (stringifyFields fs ++ '}' :: rest) acc =
         some (.vObj (JsFields.setAll acc fs), rest)) := by
  intro f
  induction f with
  | zero =>
    refine ⟨?_, ?_, ?_⟩
    · intro v rest hc hsz hb
      have := jsSize_pos v
      omega
    · intro xs acc rest hc hne hsz
      cases xs with
      | nil => exact absurd rfl hne
      | cons x tl =>
        simp only [itemsSize] at hsz
        omega
    · intro fs acc rest hc hne hsz
      cases fs with
      | nil => exact absurd rfl hne
      | cons k v tl =>
        simp only [fieldsSize] at hsz
        omega
  | succ f ih =>
    obtain ⟨ih1, ih2, ih3⟩ := ih
    refine ⟨?_, ?_, ?_⟩
    · intro v rest hc hsz hb
      cases v with
      | vUndef => exact absurd hc (by decide)
      | vNull => rfl
      | vBool b =>
        cases b with
        | false => rfl
        | true => rfl
      | vNum n =>
        by_cases hneg : n < 0
        · have h0 : stringifyJ (.vNum n) ++ rest = '-' :: (natDecimal n.natAbs ++ rest) := by
            simp [stringifyJ, intDecimal, hneg]
          rw [h0, parseValF_other f '-' _ (by decide)]
          have h2 : ('-' : Char) :: (natDecimal n.natAbs ++ rest) = intDecimal n ++ rest := by
            simp [intDecimal, hneg]
          rw [h2]
          exact parseNum_intDecimal n rest hb
        · obtain ⟨h, t, hht⟩ := List.exists_cons_of_ne_nil (natDecimal_ne_nil n.natAbs)
          have hall := natDecimal_all_digits n.natAbs
          rw [hht] at hall
          simp only [List.all_cons, Bool.and_eq_true] at hall
          have hdig := hall.1
          have h0 : stringifyJ (.vNum n) ++ rest = h :: (t ++ rest) := by
            simp [stringifyJ, intDecimal, hneg, hht]
          rw [h0, parseValF_other f h _
            ⟨digit_not_ws h hdig,
              digit_ne_of_not_digit h hdig '\x7b' (by decide),
              digit_ne_of_not_digit h hdig '[' (by decide),
              digit_ne_of_not_digit h hdig '"' (by decide),
              digit_ne_of_not_digit h hdig 't' (by decide),
              digit_ne_of_not_digit h hdig 'f' (by decide),
              digit_ne_of_not_digit h hdig 'n' (by decide)⟩]
          have h2 : h :: (t ++ rest) = intDecimal n ++ rest := by
            simp [intDecimal, hneg, hht]
          rw [h2]
          exact parseNum_intDecimal n rest hb
      | vStr s =>
        obtain ⟨sd⟩ := s
        have hi : stringifyJ (.vStr (String.mk sd)) ++ rest =
            '"' :: (escapeList sd ++ '"' :: rest) := by
          simp [stringifyJ]
        rw [hi, parseValF_quote,
          parseStrBody_escape sd rest (by simpa [cleanJ, cleanChars] using hc)]
        rfl
      | vArr xs =>
        cases xs with
        | nil => rfl
        | cons x xtl =>
          have hcI : cleanItems (.cons x xtl) = true := by
            simpa only [cleanJ] using hc
          have hcx : cleanJ x = true := by
            simp only [cleanItems, Bool.and_eq_true] at hcI
            exact hcI.1
          have hxu := cleanJ_ne_undef x hcx
          obtain ⟨h, t, hht, hws, hrb⟩ := stringifyJ_head x hcx
          have hT : stringifyItems (.cons x xtl) ++ ']' :: rest =
              h :: (t ++ ((if xtl = .nil then [] else ',' :: stringifyItems xtl) ++
                ']' :: rest)) := by
            simp [stringifyItems, hxu, hht]
          have hi : stringifyJ (.vArr (.cons x xtl)) ++ rest =
              '[' :: (stringifyItems (.cons x xtl) ++ ']' :: rest) := by
            simp [stringifyJ]
          rw [hi, parseValF_open_bracket, hT, skipWs_cons_not_ws h hws,
            if_neg (by simp [hrb]), ← hT]
          have hsz2 : itemsSize (.cons x xtl) ≤ f := by
            simp only [jsSize] at hsz
            omega
          exact ih2 (.cons x xtl) .nil rest hcI (by intro he; exact JsItems.noConfusion he) hsz2
      | vObj fs =>
        cases fs with
        | nil => rfl
        | cons k v0 ftl =>
          have hcF : cleanFields (.cons k v0 ftl) = true := by
            simpa only [cleanJ] using hc
          have hcv : cleanJ v0 = true := by
            simp only [cleanFields, Bool.and_eq_true] at hcF
            exact hcF.1.1.2
          have hvu := cleanJ_ne_undef v0 hcv
          have hF : stringifyFields (.cons k v0 ftl) ++ '}' :: rest =
              '"' :: ((escapeList k.data ++ ['"', ':'] ++ stringifyJ v0 ++
                (if hasJsonField ftl then [','] else []) ++ stringifyFields ftl) ++
                '}' :: rest) := by
            simp [stringifyFields, hvu]
          have hi : stringifyJ (.vObj (.cons k v0 ftl)) ++ rest =
              '\x7b' :: (stringifyFields (.cons k v0 ftl) ++ '}' :: rest) := by
            simp [stringifyJ]
          rw [hi, parseValF_open_brace, hF, skipWs_cons_not_ws '"' (by decide),
            if_neg (by simp), ← hF]
          have hsz2 : fieldsSize (.cons k v0 ftl) ≤ f := by
            simp only [jsSize] at hsz
            omega
          rw [ih3 (.cons k v0 ftl) .nil rest hcF (by intro he; exact JsFields.noConfusion he)
            hsz2, JsFields.setAll_nil_clean _ hcF]
    · intro xs acc rest hc hne hsz
      cases xs with
      | nil => exact absurd rfl hne
      | cons x tl =>
        simp only [cleanItems, Bool.and_eq_true] at hc
        obtain ⟨hcx, hctl⟩ := hc
        have hxu := cleanJ_ne_undef x hcx
        simp only [itemsSize] at hsz
        cases tl with
        | nil =>
          have hcs : stringifyItems (.cons x .nil) ++ ']' :: rest =
              stringifyJ x ++ ']' :: rest := by
            simp [stringifyItems, hxu]
          have hstep : parseElemsF (f + 1) (stringifyJ x ++ ']' :: rest) acc =
              (match parseValF f (stringifyJ x ++ ']' :: rest) with
               | none => none
               | some (v, r1) =>
                 (match skipWs r1 with
                  | ',' :: r2 => parseElemsF f r2 (acc.append (.cons v .nil))
                  | ']' :: r2 => some (.vArr (acc.append (.cons v .nil)), r2)
                  | _ => none)) := rfl
          rw [hcs, hstep, ih1 x (']' :: rest) hcx (by omega) rfl]
          rfl
        | cons y ytl =>
          have hcs : stringifyItems (.cons x (.cons y ytl)) ++ ']' :: rest =
              stringifyJ x ++ ',' :: (stringifyItems (.cons y ytl) ++ ']' :: rest) := by
            simp [stringifyItems, hxu]
          have hstep : parseElemsF (f + 1)
              (stringifyJ x ++ ',' :: (stringifyItems (.cons y ytl) ++ ']' :: rest)) acc =
              (match parseValF f
                  (stringifyJ x ++ ',' :: (stringifyItems (.cons y ytl) ++ ']' :: rest)) with
               | none => none
               | some (v, r1) =>
                 (match skipWs r1 with
                  | ',' :: r2 => parseElemsF f r2 (acc.append (.cons v .nil))
                  | ']' :: r2 => some (.vArr (acc.append (.cons v .nil)), r2)
                  | _ => none)) := rfl
          rw [hcs, hstep,
            ih1 x (',' :: (stringifyItems (.cons y ytl) ++ ']' :: rest)) hcx (by omega) rfl,
            show acc.append (.cons x (.cons y ytl)) =
              (acc.append (.cons x .nil)).append (.cons y ytl) from
              (JsItems.append_cons_nil acc x (.cons y ytl)).symm]
          exact ih2 (.cons y ytl) (acc.append (.cons x .nil)) rest hctl
            (by intro he; exact JsItems.noConfusion he) (by omega)
    · intro fs acc rest hc hne hsz
      cases fs with
      | nil => exact absurd rfl hne
      | cons k v0 ftl =>
        obtain ⟨kd⟩ := k
        simp only [cleanFields, Bool.and_eq_true, Bool.not_eq_true'] at hc
        obtain ⟨⟨⟨hck, hcv⟩, hnk⟩, hctl⟩ := hc
        have hvu := cleanJ_ne_undef v0 hcv
        simp only [fieldsSize] at hsz
        cases ftl with
        | nil =>
          have hF : stringifyFields (.cons (String.mk kd) v0 .nil) ++ '}' :: rest =
              '"' :: (escapeList kd ++ '"' :: ':' :: (stringifyJ v0 ++ '}' :: rest)) := by
            simp [stringifyFields, hvu, hasJsonField]
          have hm : parseMembersF (f + 1)
              ('"' :: (escapeList kd ++ '"' :: ':' :: (stringifyJ v0 ++ '}' :: rest))) acc =
              (match parseStrBody (escapeList kd ++ '"' ::
                  (':' :: (stringifyJ v0 ++ '}' :: rest))) with
               | none => none
               | some (k1, r1) =>
                 (match skipWs r1 with
                  | ':' :: r2 =>
                    (match parseValF f r2 with
                     | none => none
                     | some (v1, r3) =>
                       (match skipWs r3 with
                        | ',' :: r4 => parseMembersF f r4 (acc.set (String.mk k1) v1)
                        | '}' :: r4 => some (.vObj (acc.set (String.mk k1) v1), r4)
                        | _ => none))
                  | _ => none)) := rfl
          rw [hF, hm, parseStrBody_escape kd (':' :: (stringifyJ v0 ++ '}' :: rest)) hck]
          simp only []
          show (match parseValF f (stringifyJ v0 ++ '}' :: rest) with
                | none => none
                | some (v1, r3) =>
                  (match skipWs r3 with
                   | ',' :: r4 => parseMembersF f r4 (acc.set (String.mk kd) v1)
                   | '}' :: r4 => some (.vObj (acc.set (String.mk kd) v1), r4)
                   | _ => none)) =
              some (.vObj (acc.setAll (.cons (String.mk kd) v0 .nil)), rest)
          rw [ih1 v0 ('}' :: rest) hcv (by omega) rfl]
          rfl
        | cons k2 v2 ftl2 =>
          have hv2u : v2 ≠ .vUndef := by
            simp only [cleanFields, Bool.and_eq_true] at hctl
            exact cleanJ_ne_undef v2 hctl.1.1.2
          have hhj : hasJsonField (.cons k2 v2 ftl2) = true := by
            simp [hasJsonField, hv2u]
          have hF : stringifyFields (.cons (String.mk kd) v0 (.cons k2 v2 ftl2)) ++
              '}' :: rest =
              '"' :: (escapeList kd ++ '"' :: ':' :: (stringifyJ v0 ++ ',' ::
                (stringifyFields (.cons k2 v2 ftl2) ++ '}' :: rest))) := by
            simp [stringifyFields, hvu]
            rw [hhj]
            simp
          have hm : parseMembersF (f + 1)
              ('"' :: (escapeList kd ++ '"' :: ':' :: (stringifyJ v0 ++ ',' ::
                (stringifyFields (.cons k2 v2 ftl2) ++ '}' :: rest)))) acc =
              (match parseStrBody (escapeList kd ++ '"' ::
                  (':' :: (stringifyJ v0 ++ ',' ::
                    (stringifyFields (.cons k2 v2 ftl2) ++ '}' :: rest)))) with
               | none => none
               | some (k1, r1) =>
                 (match skipWs r1 with
                  | ':' :: r2 =>
                    (match parseValF f r2 with
                     | none => none
                     | some (v1, r3) =>
                       (match skipWs r3 with
                        | ',' :: r4 => parseMembersF f r4 (acc.set (String.mk k1) v1)
                        | '}' :: r4 => some (.vObj (acc.set (String.mk k1) v1), r4)
                        | _ => none))
                  | _ => none)) := rfl
          rw [hF, hm, parseStrBody_escape kd (':' :: (stringifyJ v0 ++ ',' ::
            (stringifyFields (.cons k2 v2 ftl2) ++ '}' :: rest))) hck]
          simp only []
          show (match parseValF f (stringifyJ v0 ++ ',' ::
                  (stringifyFields (.cons k2 v2 ftl2) ++ '}' :: rest)) with
                | none => none
                | some (v1, r3) =>
                  (match skipWs r3 with
                   | ',' :: r4 => parseMembersF f r4 (acc.set (String.mk kd) v1)
                   | '}' :: r4 => some (.vObj (acc.set (String.mk kd) v1), r4)
                   | _ => none)) =
              some (.vObj (acc.setAll (.cons (String.mk kd) v0 (.cons k2 v2 ftl2))), rest)
          rw [ih1 v0 (',' :: (stringifyFields (.cons k2 v2 ftl2) ++ '}' :: rest)) hcv
            (by omega) rfl]
          exact ih3 (.cons k2 v2 ftl2) (acc.set (String.mk kd) v0) rest hctl
            (by intro he; exact JsFields.noConfusion he) (by omega)

/-- The structural size of a clean value is bounded by the length of its
serialization, so the fuel `jsonParse` allots is always sufficient. -/
theorem size_le_len : ∀ n : Nat,
    (∀ v, jsSize v ≤ n → cleanJ v = true → jsSize v ≤ (stringifyJ v).length) ∧
    (∀ xs, itemsSize xs ≤ n → cleanItems xs = true →
       itemsSize xs ≤ (stringifyItems xs).length + 1) ∧
    (∀ fs, fieldsSize fs ≤ n → cleanFields fs = true →
       fieldsSize fs ≤ (stringifyFields fs).length + 1) := by
  intro n
  induction n with
  | zero =>
    refine ⟨?_, ?_, ?_⟩
    · intro v hsz _
      have := jsSize_pos v
      omega
    · intro xs hsz _
      cases xs with
      | nil => simp [itemsSize]
      | cons x tl =>
        simp only [itemsSize] at hsz
        omega
    · intro fs hsz _
      cases fs with
      | nil => simp [fieldsSize]
      | cons k v tl =>
        simp only [fieldsSize] at hsz
        omega
  | succ n ih =>
    obtain ⟨ihv, ihi, ihf⟩ := ih
    refine ⟨?_, ?_, ?_⟩
    · intro v hsz hc
      cases v with
      | vUndef => exact absurd hc (by decide)
      | vNull => decide
      | vBool b => cases b <;> decide
      | vNum m =>
        have hlen : 1 ≤ (intDecimal m).length := by
          by_cases hneg : m < 0
          · simp [intDecimal, hneg]
          · have hne := natDecimal_ne_nil m.natAbs
            have := List.length_pos.mpr hne
            simp [intDecimal, hneg]
            omega
        simpa [jsSize, stringifyJ] using hlen
      | vStr s =>
        simp [jsSize, stringifyJ]
      | vArr xs =>
        simp only [jsSize] at hsz ⊢
        have hxs : itemsSize xs ≤ n := by omega
        have hcx : cleanItems xs = true := by simpa only [cleanJ] using hc
        have := ihi xs hxs hcx
        simp only [stringifyJ, List.length_cons, List.length_append, List.length_cons,
          List.length_nil]
        omega
      | vObj fs =>
        simp only [jsSize] at hsz ⊢
        have hfs : fieldsSize fs ≤ n := by omega
        have hcf : cleanFields fs = true := by simpa only [cleanJ] using hc
        have := ihf fs hfs hcf
        simp only [stringifyJ, List.length_cons, List.length_append, List.length_cons,
          List.length_nil]
        omega
    · intro xs hsz hc
      cases xs with
      | nil => simp [itemsSize]
      | cons x tl =>
        simp only [cleanItems, Bool.and_eq_true] at hc
        obtain ⟨hcx, hctl⟩ := hc
        have hxu := cleanJ_ne_undef x hcx
        simp only [itemsSize] at hsz ⊢
        have h1 := ihv x (by omega) hcx
        have h2 := ihi tl (by omega) hctl
        cases tl with
        | nil =>
          simp only [itemsSize] at h2 ⊢
          simp [stringifyItems, hxu]
          omega
        | cons y ytl =>
          simp only [stringifyItems, hxu, if_neg,
            List.length_append, List.length_cons] at h2 ⊢
          have hne2 : (JsItems.cons y ytl) = JsItems.nil ↔ False := by
            constructor
            · intro he
              exact JsItems.noConfusion he
            · intro he
              exact absurd he (by simp)
          simp [hne2]
          omega
    · intro fs hsz hc
      cases fs with
      | nil => simp [fieldsSize]
      | cons k v tl =>
        simp only [cleanFields, Bool.and_eq_true, Bool.not_eq_true'] at hc
        obtain ⟨⟨⟨hck, hcv⟩, hnk⟩, hctl⟩ := hc
        have hvu := cleanJ_ne_undef v hcv
        simp only [fieldsSize] at hsz ⊢
        have h1 := ihv v (by omega) hcv
        have h2 := ihf tl (by omega) hctl
        simp [stringifyFields, hvu, List.length_append]
        omega

/-- `JSON.parse` inverts `JSON.stringify` on clean values. -/
theorem jsonParse_jsonStringify (v : JsValue) (hc : cleanJ v = true) :
    jsonParse (jsonStringify v) = some v := by
  have hsize : jsSize v ≤ (stringifyJ v).length := (size_le_len (jsSize v)).1 v le_rfl hc
  have h1 := (parse_stringify_aux ((stringifyJ v).length + 1)).1 v [] hc (by omega) rfl
  rw [List.append_nil] at h1
  have hJ : jsonParse (jsonStringify v) =
      (match parseValF ((stringifyJ v).length + 1) (stringifyJ v) with
       | some (v1, rest) => if skipWs rest = [] then some v1 else none
       | none => none) := rfl
  rw [hJ, h1]
  rfl


---------------------------------------------------------------------------
-- src/configuration.js: resolveConfigurationVariables
---------------------------------------------------------------------------

/-- A character matched by the token regex class `[A-z0-9_\-\.]`
(`A-z` spans codes 65 to 122). -/
def isWordChar (c : Char) : Bool :=
  (65 ≤ c.toNat && c.toNat ≤ 122) || (48 ≤ c.toNat && c.toNat ≤ 57) || c = '-' || c = '.'

/-- Leftmost non-overlapping matches of `/%([A-z0-9_\-\.]+)%/g`, with the
delimiters included, as `String.prototype.match` returns them.  Fueled on
the text length (each step consumes at least one character). -/
def findWordsGo : Nat → List Char → List (List Char)
  | 0, _ => []
  | Nat.succ _, [] => []
  | Nat.succ fu, c :: tl =>
    if c = '%' then
      let run := tl.takeWhile isWordChar
      if run = [] then findWordsGo fu tl
      else
        (match tl.drop run.length with
         | '%' :: tl2 => ('%' :: (run ++ ['%'])) :: findWordsGo fu tl2
         | _ => findWordsGo fu tl)
    else findWordsGo fu tl

/-- All `%NAME%` matches of the text. -/
def findWords (cs : List Char) : List (List Char) := findWordsGo cs.length cs

/-- The first-seen dedup filter applied to the match list. -/
def dedupFirstGo : List (List Char) → List (List Char) → List (List Char)
  | _, [] => []
  | seen, w :: tl =>
    if seen.contains w then dedupFirstGo seen tl
    else w :: dedupFirstGo (w :: seen) tl

/-- Keep the first occurrence of each word, in order. -/
def dedupFirst (ws : List (List Char)) : List (List Char) := dedupFirstGo [] ws

/-- `String.prototype.replace(/lit/g, repl)` for a literal pattern:
replace every leftmost non-overlapping occurrence. -/
def replaceAllLitGo : Nat → List Char → List Char → List Char → List Char
  | 0, _, _, s => s
  | Nat.succ _, _, _, [] => []
  | Nat.succ fu, pat, repl, c :: tl =>
    if pat ≠ [] && listStartsWith (c :: tl) pat then
      repl ++ replaceAllLitGo fu pat repl ((c :: tl).drop pat.length)
    else c :: replaceAllLitGo fu pat repl tl

/-- Global literal replacement. -/
def replaceAllLit (pat repl s : List Char) : List Char :=
  replaceAllLitGo s.length pat repl s

/-- Does the text start with the pattern, where `.` in the pattern matches
any character except a newline?  This models the regex the word is turned
into: the escaping step `w.replace(/([.*+?^=!:$\x7b\x7d()|[\]\/\\])/g, '$1')`
replaces each special character by itself, so a `.` inside a token stays a
wildcard. -/
def matchPat : List Char → List Char → Bool
  | p :: ps, c :: cs => (if p = '.' then !(c = '\n') else p = c) && matchPat ps cs
  | _ :: _, [] => false
  | [], _ => true

/-- `String.prototype.replace(new RegExp(w, 'g'), repl)` with `.` as the
only effective metacharacter in `w`. -/
def replaceAllPatGo : Nat → List Char → List Char → List Char → List Char
  | 0, _, _, s => s
  | Nat.succ _, _, _, [] => []
  | Nat.succ fu, pat, repl, c :: tl =>
    if pat ≠ [] && matchPat pat (c :: tl) then
      repl ++ replaceAllPatGo fu pat repl ((c :: tl).drop pat.length)
    else c :: replaceAllPatGo fu pat repl tl

/-- Global pattern replacement. -/
def replaceAllPat (pat repl s : List Char) : List Char :=
  replaceAllPatGo s.length pat repl s

/-- `sjc.getJSON(config, query)` from the `simplejsonconf` dependency: walk
the dot-separated path through the tree, `undefined` when the walk leaves
it. -/
def getConfigurationGo : JsValue → List String → JsValue
  | v, [] => v
  | .vObj fs, k :: ks =>
    (match fs.lookup k with
     | some v2 => getConfigurationGo v2 ks
     | none => .vUndef)
  | _, _ :: _ => (.vUndef)

/-- `getConfiguration` from `src/configuration.js` (no default value). -/
def getConfiguration (config : JsValue) (query : String) : JsValue :=
  getConfigurationGo config (jsSplitChar query '.')

/-- A character matched by `[A-Z]`. -/
def isUpperChar (c : Char) : Bool := 65 ≤ c.toNat && c.toNat ≤ 90

/-- The reserved words of `resolveConfigurationVariables`. -/
def safeWords : List String := ["%VERSION%", "%DIST%", "%DROOT%", "%UID%", "%USERNAME%"]

/-- The value substituted for one non-reserved token name `p`:
`(u ? process.env[p] : null) || getConfiguration(tmpConfig, p)` where
`u = /^[A-Z]*$/.test(p)`. -/
def resolveWordValue (env : String → Option String) (tmpConfig : JsValue) (p : String) :
    JsValue :=
  let u := p.data.all isUpperChar
  let envPart : JsValue :=
    if u then
      (match env p with
       | some s => .vStr s
       | none => .vUndef)
    else .vNull
  if jsTruthy envPart then envPart else getConfiguration tmpConfig p

/-- The `words.forEach` substitution loop: each non-reserved word is
replaced globally in the running text by `String(value)`, with the value
looked up in the configuration parsed before the loop started. -/
def resolveWords (env : String → Option String) (tmpConfig : JsValue) :
    List (List Char) → List Char → List Char
  | [], text => text
  | w :: ws, text =>
    if safeWords.contains (String.mk w) then resolveWords env tmpConfig ws text
    else
      resolveWords env tmpConfig ws
        (replaceAllPat w
          (jsToString (resolveWordValue env tmpConfig
            (String.mk (w.filter (fun c => !(c = '%')))))).data
          text)

/-- `resolveConfigurationVariables(object, overlay)` from
`src/configuration.js`.  `iswin`, `root` and `env` are the ambient
platform flag, `ROOT` and `process.env`; a `JSON.parse` failure is the
thrown `SyntaxError`. -/
def resolveConfigurationVariables (iswin : Bool) (root : String)
    (env : String → Option String) (overlay : Option String)
    (object : JsValue) : Except Unit JsValue :=
  let t0 := (jsonStringify object).data
  let t1 := replaceAllLit "%ROOT%".data (fixWinPath iswin root true).data t0
  let t2 := (match overlay with
    | some ov => replaceAllLit "%OVERLAY%".data (fixWinPath iswin ov true).data t1
    | none => t1)
  let words := dedupFirst (findWords t2)
  match jsonParse (String.mk t2) with
  | none => .error ()
  | some tmpConfig =>
    (match jsonParse (String.mk (resolveWords env tmpConfig words t2)) with
     | none => .error ()
     | some result => .ok result)

---------------------------------------------------------------------------
-- Token dependency graph: the "no self-referential tokens" side condition
---------------------------------------------------------------------------

/-- The distinct token names appearing in the serialized tree. -/
def tokenNames (t : JsValue) : List String :=
  (dedupFirst (findWords (jsonStringify t).data)).map
    (fun w => String.mk (w.filter (fun c => !(c = '%'))))

/-- Token `p` depends on token `q`: `%q%` occurs in the rendered value the
tree gives for `p`. -/
def tokenEdge (t : JsValue) (p q : String) : Bool :=
  (findWords (jsToString (getConfiguration t p)).data).contains ('%' :: (q.data ++ ['%']))

/-- Reachability along token dependencies in at most `n+1` steps. -/
def tokenReach (t : JsValue) : Nat → String → String → Bool
  | 0, p, q => tokenEdge t p q
  | Nat.succ n, p, q =>
    tokenEdge t p q || (tokenNames t).any (fun m => tokenEdge t p m && tokenReach t n m q)

/-- No token of the tree depends on itself, directly or transitively. -/
def selfRefFree (t : JsValue) : Bool :=
  (tokenNames t).all (fun p => !(tokenReach t (tokenNames t).length p p))

theorem string_mk_data (s : String) : String.mk s.data = s := rfl

/-- A substitution loop over reserved words only leaves the text
unchanged. -/
theorem resolveWords_safe (env : String → Option String) (cfg : JsValue)
    (ws : List (List Char)) (text : List Char)
    (hall : ∀ w ∈ ws, safeWords.contains (String.mk w) = true) :
    resolveWords env cfg ws text = text := by
  induction ws generalizing text with
  | nil => rfl
  | cons w tl ih =>
    have hw := hall w (List.mem_cons_self w tl)
    rw [resolveWords, if_pos hw]
    exact ih text (fun x hx => hall x (List.mem_cons_of_mem w hx))

/-- **C2** counterexample: the tree `{"c":"x","b":"%c%","a":"%b%"}` has no
self-referential token (its dependency chain `a → b → c` is acyclic), yet
one resolution pass leaves `a = "%c%"` (because `%b%` is substituted with
the value of `b` in the configuration parsed before the loop), and a
second pass changes the tree again: resolution is not idempotent. -/
theorem c2_counterexample :
    selfRefFree (.vObj (.cons "c" (.vStr "x") (.cons "b" (.vStr "%c%")
      (.cons "a" (.vStr "%b%") .nil)))) = true ∧
    resolveConfigurationVariables false "/r" (fun _ => none) none
      (.vObj (.cons "c" (.vStr "x") (.cons "b" (.vStr "%c%")
        (.cons "a" (.vStr "%b%") .nil)))) =
      .ok (.vObj (.cons "c" (.vStr "x") (.cons "b" (.vStr "x")
        (.cons "a" (.vStr "%c%") .nil)))) ∧
    resolveConfigurationVariables false "/r" (fun _ => none) none
      (.vObj (.cons "c" (.vStr "x") (.cons "b" (.vStr "x")
        (.cons "a" (.vStr "%c%") .nil)))) =
      .ok (.vObj (.cons "c" (.vStr "x") (.cons "b" (.vStr "x")
        (.cons "a" (.vStr "x") .nil)))) ∧
    (JsValue.vObj (.cons "c" (.vStr "x") (.cons "b" (.vStr "x")
      (.cons "a" (.vStr "%c%") .nil))) ≠
     .vObj (.cons "c" (.vStr "x") (.cons "b" (.vStr "x")
       (.cons "a" (.vStr "x") .nil)))) :=
  ⟨by decide, rfl, rfl, by decide⟩

/-- **C2** (amended): resolution acts as the identity on a tree whose
serialized form is untouched by the `%ROOT%` pre-replacement and whose
scanned tokens are all reserved words; on such trees a second application
agrees with the first.  (The original idempotence claim fails because a
substituted value may itself contain a token, which a later pass resolves
against the pre-loop tree, as the counterexample shows.) -/
theorem c2_resolve_fixed_point (iswin : Bool) (root : String)
    (env : String → Option String) (r : JsValue)
    (h1 : replaceAllLit "%ROOT%".data (fixWinPath iswin root true).data
        (jsonStringify r).data = (jsonStringify r).data)
    (h2 : ∀ w ∈ dedupFirst (findWords (jsonStringify r).data),
        safeWords.contains (String.mk w) = true)
    (h3 : cleanJ r = true) :
    resolveConfigurationVariables iswin root env none r = .ok r := by
  simp only [resolveConfigurationVariables]
  rw [h1, string_mk_data, jsonParse_jsonStringify r h3]
  simp only []
  rw [resolveWords_safe env r _ (jsonStringify r).data h2, string_mk_data,
    jsonParse_jsonStringify r h3]

/-- Witness for the amended C2 theorem at a concrete token-free tree. -/
theorem c2_witness :
    (replaceAllLit "%ROOT%".data (fixWinPath false "/r" true).data
      (jsonStringify (.vObj (.cons "greet" (.vStr "hello") .nil))).data =
      (jsonStringify (.vObj (.cons "greet" (.vStr "hello") .nil))).data) ∧
    (∀ w ∈ dedupFirst (findWords
        (jsonStringify (.vObj (.cons "greet" (.vStr "hello") .nil))).data),
      safeWords.contains (String.mk w) = true) ∧
    cleanJ (.vObj (.cons "greet" (.vStr "hello") .nil)) = true ∧
    resolveConfigurationVariables false "/r" (fun _ => none) none
      (.vObj (.cons "greet" (.vStr "hello") .nil)) =
      .ok (.vObj (.cons "greet" (.vStr "hello") .nil)) :=
  ⟨by decide, by decide, by decide,
    c2_resolve_fixed_point false "/r" (fun _ => none)
      (.vObj (.cons "greet" (.vStr "hello") .nil)) (by decide) (by decide) (by decide)⟩

/-- **C3** counterexample: `FOO` is all-uppercase and is set in the
environment (to the empty string), yet the substituted value is the tree
lookup `"bar"`, not the environment value. -/
theorem c3_counterexample :
    ((fun s => if s = "FOO" then some "" else none) : String → Option String) "FOO" =
      some "" ∧
    resolveConfigurationVariables false "/r"
      (fun s => if s = "FOO" then some "" else none) none
      (.vObj (.cons "FOO" (.vStr "bar") (.cons "x" (.vStr "%FOO%") .nil))) =
      .ok (.vObj (.cons "FOO" (.vStr "bar") (.cons "x" (.vStr "bar") .nil))) :=
  ⟨rfl, rfl⟩

/-- **C3** (amended): the value substituted for a non-reserved token name
is the environment variable only when the name is all-uppercase and the
variable is set to a non-empty string; when the variable is unset or set
to the empty string (falsy), and always for a name that is not
all-uppercase, the dot-path lookup in the pre-loop tree is used. -/
theorem c3_token_value (env : String → Option String) (cfg : JsValue) (p : String) :
    (p.data.all isUpperChar = true → ∀ s, env p = some s → s ≠ "" →
       resolveWordValue env cfg p = .vStr s) ∧
    (p.data.all isUpperChar = true → env p = none →
       resolveWordValue env cfg p = getConfiguration cfg p) ∧
    (p.data.all isUpperChar = true → env p = some "" →
       resolveWordValue env cfg p = getConfiguration cfg p) ∧
    (p.data.all isUpperChar = false →
       resolveWordValue env cfg p = getConfiguration cfg p) := by
  refine ⟨?_, ?_, ?_, ?_⟩
  · intro hu s hs hne
    simp [resolveWordValue, hu, hs, jsTruthy, hne]
  · intro hu hs
    simp [resolveWordValue, hu, hs, jsTruthy]
  · intro hu hs
    simp [resolveWordValue, hu, hs, jsTruthy]
  · intro hu
    simp [resolveWordValue, hu, jsTruthy]

/-- Witness for the amended C3 theorem: a set, non-empty, all-uppercase
environment variable is used. -/
theorem c3_witness :
    ("HOME".data.all isUpperChar = true) ∧
    ((fun s => if s = "HOME" then some "/h" else none) : String → Option String) "HOME" =
      some "/h" ∧
    ("/h" : String) ≠ "" ∧
    resolveWordValue (fun s => if s = "HOME" then some "/h" else none)
      (.vObj .nil) "HOME" = .vStr "/h" :=
  ⟨by decide, rfl, by decide,
    (c3_token_value (fun s => if s = "HOME" then some "/h" else none)
      (.vObj .nil) "HOME").1 (by decide) "/h" rfl (by decide)⟩


---------------------------------------------------------------------------
-- src/configuration.js: readConfigurationTree
---------------------------------------------------------------------------

/-- One iteration of the `files.forEach` body of `_read` in
`readConfigurationTree`: read one fragment (`none` models a
`fs.readJsonSync` throw on a file that is not valid JSON), resolve it when
reading an overlay directory, and merge it into the accumulator; the
surrounding `try`/`catch` turns any exception into a warning and skips the
fragment. -/
def readFrag (iswin : Bool) (root : String) (env : String → Option String)
    (overlay : Option String) (acc : JsValue) (frag : Option JsValue) : JsValue :=
  match frag with
  | none => acc
  | some json =>
    (match (match overlay with
            | some ov => resolveConfigurationVariables iswin root env (some ov) json
            | none => .ok json) with
     | .error _ => acc
     | .ok json2 =>
       (match mergeObject acc json2 with
        | .error _ => acc
        | .ok merged => merged))

/-- `_read(p, r)`: fold the fragments of one directory in glob order. -/
def readDir (iswin : Bool) (root : String) (env : String → Option String)
    (overlay : Option String) (acc : JsValue) (frags : List (Option JsValue)) : JsValue :=
  frags.foldl (readFrag iswin root env overlay) acc

/-- `readConfigurationTree`: merge the base `src/conf` fragments into `{}`,
then the fragments of each discovered overlay directory (the directory
list and per-directory fragment lists are filesystem oracles, in the order
the code visits them), then resolve the merged tree. -/
def readConfigurationTree (iswin : Bool) (root : String) (env : String → Option String)
    (baseFrags : List (Option JsValue))
    (overlayFrags : List (String × List (Option JsValue))) : Except Unit JsValue :=
  let base := readDir iswin root env none (.vObj .nil) baseFrags
  let merged := overlayFrags.foldl
    (fun acc pr => readDir iswin root env (some pr.1) acc pr.2) base
  resolveConfigurationVariables iswin root env none merged

theorem readDir_skip_none (iswin : Bool) (root : String) (env : String → Option String)
    (overlay : Option String) (acc : JsValue) (l1 l2 : List (Option JsValue)) :
    readDir iswin root env overlay acc (l1 ++ none :: l2) =
      readDir iswin root env overlay acc (l1 ++ l2) := by
  simp only [readDir, List.foldl_append, List.foldl_cons]
  rfl

/-- **C4**: a fragment file that is not valid JSON is skipped (its
`readJsonSync` throw is caught and warned about), and the resulting tree
is the one obtained by merging the remaining fragments in order — whether
the invalid fragment sits in the base directory or in an overlay
directory. -/
theorem c4_invalid_fragment_skipped (iswin : Bool) (root : String)
    (env : String → Option String) (pre post : List (Option JsValue))
    (ovs : List (String × List (Option JsValue)))
    (base : List (Option JsValue)) (d : String) (p1 p2 : List (Option JsValue))
    (ovpre ovpost : List (String × List (Option JsValue))) :
    readConfigurationTree iswin root env (pre ++ none :: post) ovs =
      readConfigurationTree iswin root env (pre ++ post) ovs ∧
    readConfigurationTree iswin root env base
        (ovpre ++ (d, p1 ++ none :: p2) :: ovpost) =
      readConfigurationTree iswin root env base (ovpre ++ (d, p1 ++ p2) :: ovpost) := by
  constructor
  · simp only [readConfigurationTree, readDir_skip_none]
  · simp only [readConfigurationTree, List.foldl_append, List.foldl_cons]
    rw [readDir_skip_none]


---------------------------------------------------------------------------
-- src/packages.js: getRepositoryPackages and getMetadata
---------------------------------------------------------------------------

/-- The per-file body of `getRepositoryPackages(cfg, repo)`: read each
discovered `metadata.json` (the oracle lists the glob results with their
parsed contents, in order), keep the descriptors `checkEnabledState`
accepts, and key them by `metadata.path`.  A `readMetadataFile` or
`checkEnabledState` throw rejects the whole repository promise. -/
def getRepoGo (fe fd : List String) (root repo : String) :
    List (String × JsValue) → JsFields → Except Unit JsFields
  | [], acc => .ok acc
  | pr :: tl, acc => do
    let md ← readMetadataFile root pr.1 (some repo) pr.2
    let en ← checkEnabledStateE fe fd md
    let acc2 ← (if en then do
        let pv ← jsGetE md "path"
        pure (acc.set (jsToString pv) md)
      else pure acc)
    getRepoGo fe fd root repo tl acc2

/-- `getRepositoryPackages(cfg, repo)` over the filesystem oracle. -/
def getRepositoryPackages (fe fd : List String) (root repo : String)
    (files : List (String × JsValue)) : Except Unit JsFields :=
  getRepoGo fe fd root repo files .nil

/-- The per-repository body of `getMetadata`:
`list = Object.assign(list, packages)` over the repositories in order. -/
def getMetaGo (fe fd : List String) (root : String)
    (files : String → List (String × JsValue)) :
    List String → JsFields → Except Unit JsFields
  | [], list => .ok list
  | repo :: tl, list => do
    let pkgs ← getRepositoryPackages fe fd root repo (files repo)
    getMetaGo fe fd root files tl (JsFields.setAll list pkgs)

/-- `getMetadata(cfg, cli)` with the default accept-all filter. -/
def getMetadata (fe fd : List String) (root : String) (repos : List String)
    (files : String → List (String × JsValue)) : Except Unit JsFields :=
  getMetaGo fe fd root files repos .nil

/-- A successful `readMetadataFile` of a plain-object descriptor with an
explicit non-empty repository name always sets
`path = repo + '/' + basename(dirname(file))`. -/
theorem readMetadataFile_path (root f r : String) (o : JsFields) (md : JsValue)
    (hr : ¬ r = "") (hok : readMetadataFile root f (some r) (.vObj o) = .ok md) :
    jsGetE md "path" = .ok (.vStr (r ++ "/" ++ basename (dirname f))) := by
  simp only [readMetadataFile, jsSetE, jsGetE, Bind.bind, Except.bind] at hok
  split at hok
  · exact Except.noConfusion hok
  · simp only [Except.ok.injEq] at hok
    subst hok
    simp [jsGetE, JsFields.lookup_set, hr]

/-- Key lists built by repeated `set` have no duplicate keys. -/
def noDupKeys : JsFields → Bool
  | .nil => true
  | .cons k _ tl => !(tl.hasKey k) && noDupKeys tl

theorem noDupKeys_set (fs : JsFields) (k : String) (v : JsValue)
    (h : noDupKeys fs = true) : noDupKeys (fs.set k v) = true := by
  induction fs using JsFields.fieldsSpineInd with
  | hnil => simp [JsFields.set, noDupKeys, JsFields.hasKey]
  | hcons k0 v0 tl ih =>
    simp only [noDupKeys, Bool.and_eq_true, Bool.not_eq_true'] at h
    obtain ⟨h1, h2⟩ := h
    by_cases he : k0 = k
    · subst he
      simp [JsFields.set, noDupKeys, h1, h2]
    · simp only [JsFields.set, if_neg he, noDupKeys, Bool.and_eq_true, Bool.not_eq_true']
      refine ⟨?_, ih h2⟩
      rw [JsFields.hasKey_set, h1]
      have : ¬ k = k0 := fun hx => he hx.symm
      simp [this]

/-- A key of the mapping a repository contributes: the repository name, a
slash, and a slash-free package directory name. -/
def keyShaped (r k : String) : Prop :=
  ∃ pname : String,
    k = r ++ "/" ++ pname ∧ pname.data.all (fun c => !(c = '/')) = true

theorem getRepoGo_shape (fe fd : List String) (root r : String) (hr : ¬ r = "") :
    ∀ (files : List (String × JsValue)) (acc pkgs : JsFields),
      (∀ pr ∈ files, ∃ o, pr.2 = JsValue.vObj o) →
      (∀ pr ∈ files, (basename (dirname pr.1)).data.all (fun c => !(c = '/')) = true) →
      getRepoGo fe fd root r files acc = .ok pkgs →
      ((∀ k, acc.hasKey k = true → keyShaped r k) →
        ∀ k, pkgs.hasKey k = true → keyShaped r k) ∧
      (noDupKeys acc = true → noDupKeys pkgs = true) := by
  intro files
  induction files with
  | nil =>
    intro acc pkgs _ _ hok
    simp only [getRepoGo, Except.ok.injEq] at hok
    subst hok
    exact ⟨fun h => h, fun h => h⟩
  | cons pr tl ih =>
    intro acc pkgs hraw hsl hok
    obtain ⟨o, ho⟩ := hraw pr (List.mem_cons_self pr tl)
    simp only [getRepoGo, Bind.bind, Except.bind] at hok
    cases hmd : readMetadataFile root pr.1 (some r) pr.2 with
    | error e =>
      rw [hmd] at hok
      exact Except.noConfusion hok
    | ok md =>
      rw [hmd] at hok
      simp only [] at hok
      cases hen : checkEnabledStateE fe fd md with
      | error e =>
        rw [hen] at hok
        exact Except.noConfusion hok
      | ok en =>
        rw [hen] at hok
        simp only [] at hok
        rw [ho] at hmd
        have hpath := readMetadataFile_path root pr.1 r o md hr hmd
        cases en with
        | false =>
          simp only [Bool.false_eq_true, reduceIte, pure, Except.pure] at hok
          exact ih acc pkgs (fun x hx => hraw x (List.mem_cons_of_mem pr hx))
            (fun x hx => hsl x (List.mem_cons_of_mem pr hx)) hok
        | true =>
          simp only [reduceIte, hpath, Bind.bind, Except.bind, pure, Except.pure] at hok
          have hres := ih (acc.set (jsToString
            (.vStr (r ++ "/" ++ basename (dirname pr.1)))) md) pkgs
            (fun x hx => hraw x (List.mem_cons_of_mem pr hx))
            (fun x hx => hsl x (List.mem_cons_of_mem pr hx)) hok
          refine ⟨fun hacc => hres.1 ?_, fun hnd => hres.2 (noDupKeys_set _ _ _ hnd)⟩
          intro k hkk
          rw [JsFields.hasKey_set] at hkk
          simp only [Bool.or_eq_true] at hkk
          cases hkk with
          | inl h => exact hacc k h
          | inr h =>
            simp only [decide_eq_true_eq] at h
            refine ⟨basename (dirname pr.1), ?_, hsl pr (List.mem_cons_self pr tl)⟩
            rw [← h]
            rfl

theorem lookup_setAll_not_has (fs : JsFields) :
    ∀ (acc : JsFields) (k : String), fs.hasKey k = false →
      (JsFields.setAll acc fs).lookup k = acc.lookup k := by
  induction fs using JsFields.fieldsSpineInd with
  | hnil => intro acc k _; rfl
  | hcons k0 v0 tl ih =>
    intro acc k h
    simp only [JsFields.hasKey, Bool.or_eq_false_iff] at h
    obtain ⟨h1, h2⟩ := h
    have h1' : ¬ k0 = k := by
      intro he
      rw [he] at h1
      simp at h1
    have step : JsFields.setAll acc (.cons k0 v0 tl) =
        JsFields.setAll (acc.set k0 v0) tl := rfl
    rw [step, ih (acc.set k0 v0) k h2, JsFields.lookup_set, if_neg h1']

theorem lookup_setAll_has (fs : JsFields) :
    ∀ (acc : JsFields) (k : String), noDupKeys fs = true → fs.hasKey k = true →
      (JsFields.setAll acc fs).lookup k = fs.lookup k := by
  induction fs using JsFields.fieldsSpineInd with
  | hnil =>
    intro acc k _ h
    exact Bool.noConfusion h
  | hcons k0 v0 tl ih =>
    intro acc k hnd hk
    simp only [noDupKeys, Bool.and_eq_true, Bool.not_eq_true'] at hnd
    obtain ⟨hnd1, hnd2⟩ := hnd
    have step : JsFields.setAll acc (.cons k0 v0 tl) =
        JsFields.setAll (acc.set k0 v0) tl := rfl
    by_cases he : k0 = k
    · subst he
      rw [step, lookup_setAll_not_has tl (acc.set k0 v0) k0 hnd1,
        JsFields.lookup_set, if_pos rfl]
      simp [JsFields.lookup]
    · simp only [JsFields.hasKey, Bool.or_eq_true] at hk
      cases hk with
      | inl h =>
        simp only [decide_eq_true_eq] at h
        exact absurd h he
      | inr h =>
        rw [step, ih (acc.set k0 v0) k hnd2 h]
        simp [JsFields.lookup, he]

theorem slashfree_split : ∀ (x : List Char) (y : List Char) (a b : List Char),
    a.all (fun c => !(c = '/')) = true → b.all (fun c => !(c = '/')) = true →
    x ++ '/' :: a = y ++ '/' :: b → x = y ∧ a = b := by
  intro x
  induction x with
  | nil =>
    intro y a b ha hb he
    cases y with
    | nil =>
      simp only [List.nil_append, List.cons.injEq] at he
      exact ⟨rfl, he.2⟩
    | cons d yt =>
      simp only [List.nil_append, List.cons_append, List.cons.injEq] at he
      have hmem : '/' ∈ a := by
        rw [he.2]
        exact List.mem_append_right yt (List.mem_cons_self '/' b)
      have := List.all_eq_true.mp ha '/' hmem
      simp at this
  | cons c xt ih =>
    intro y a b ha hb he
    cases y with
    | nil =>
      simp only [List.cons_append, List.nil_append, List.cons.injEq] at he
      have hmem : '/' ∈ b := by
        rw [← he.2]
        exact List.mem_append_right xt (List.mem_cons_self '/' a)
      have := List.all_eq_true.mp hb '/' hmem
      simp at this
    | cons d yt =>
      simp only [List.cons_append, List.cons.injEq] at he
      obtain ⟨h1, h2⟩ := he
      obtain ⟨h3, h4⟩ := ih yt a b ha hb h2
      exact ⟨by rw [h1, h3], h4⟩

theorem string_data_append : ∀ (a b : String), (a ++ b).data = a.data ++ b.data := by
  intro ⟨xs⟩ ⟨ys⟩
  rfl

theorem keyShaped_inj (r1 r2 k : String) (h1 : keyShaped r1 k) (h2 : keyShaped r2 k) :
    r1 = r2 := by
  obtain ⟨p1, he1, hf1⟩ := h1
  obtain ⟨p2, he2, hf2⟩ := h2
  have hd : r1.data ++ '/' :: p1.data = r2.data ++ '/' :: p2.data := by
    have e1 := congrArg String.data he1
    have e2 := congrArg String.data he2
    rw [string_data_append, string_data_append] at e1 e2
    have : ("/" : String).data = ['/'] := rfl
    rw [this] at e1 e2
    simp only [List.append_assoc, List.singleton_append] at e1 e2
    exact e1.symm.trans e2
  have := (slashfree_split r1.data r2.data p1.data p2.data hf1 hf2 hd).1
  cases r1 with
  | mk d1 =>
    cases r2 with
    | mk d2 =>
      simp only at this
      rw [this]

/-- Folding further repositories whose contributions lack the key leaves
the lookup unchanged. -/
theorem getMetaGo_preserve (fe fd : List String) (root : String)
    (files : String → List (String × JsValue)) (k : String) :
    ∀ (repos : List String) (acc final : JsFields),
      getMetaGo fe fd root files repos acc = .ok final →
      (∀ r3 ∈ repos, ∀ pkgs3, getRepositoryPackages fe fd root r3 (files r3) = .ok pkgs3 →
        pkgs3.hasKey k = false) →
      final.lookup k = acc.lookup k := by
  intro repos
  induction repos with
  | nil =>
    intro acc final hok _
    simp only [getMetaGo, Except.ok.injEq] at hok
    subst hok
    rfl
  | cons r3 rest ih =>
    intro acc final hok hmiss
    simp only [getMetaGo, Bind.bind, Except.bind] at hok
    cases hstep : getRepositoryPackages fe fd root r3 (files r3) with
    | error e =>
      rw [hstep] at hok
      exact Except.noConfusion hok
    | ok pkgs3 =>
      rw [hstep] at hok
      simp only [] at hok
      have hk3 := hmiss r3 (List.mem_cons_self r3 rest) pkgs3 hstep
      rw [ih (JsFields.setAll acc pkgs3) final hok
        (fun x hx => hmiss x (List.mem_cons_of_mem r3 hx)),
        lookup_setAll_not_has pkgs3 acc k hk3]

/-- Each repository's accepted descriptors survive to the combined map. -/
theorem getMetaGo_lookup (fe fd : List String) (root : String)
    (files : String → List (String × JsValue)) (r : String) (pkgs : JsFields) (k : String)
    (hrp : getRepositoryPackages fe fd root r (files r) = .ok pkgs)
    (hk : pkgs.hasKey k = true) :
    ∀ (repos : List String) (acc final : JsFields),
      (∀ r2 ∈ repos, ¬ r2 = "") →
      (∀ r2 ∈ repos, ∀ pr ∈ files r2, ∃ o, pr.2 = JsValue.vObj o) →
      (∀ r2 ∈ repos, ∀ pr ∈ files r2,
        (basename (dirname pr.1)).data.all (fun c => !(c = '/')) = true) →
      getMetaGo fe fd root files repos acc = .ok final →
      r ∈ repos →
      final.lookup k = pkgs.lookup k := by
  intro repos
  induction repos with
  | nil =>
    intro acc final _ _ _ _ hmem
    exact absurd hmem (List.not_mem_nil r)
  | cons r2 rest ih =>
    intro acc final hne hraw hsl hok hmem
    simp only [getMetaGo, Bind.bind, Except.bind] at hok
    cases hstep : getRepositoryPackages fe fd root r2 (files r2) with
    | error e =>
      rw [hstep] at hok
      exact Except.noConfusion hok
    | ok pkgs2 =>
      rw [hstep] at hok
      simp only [] at hok
      by_cases hrest : r ∈ rest
      · exact ih (JsFields.setAll acc pkgs2) final
          (fun x hx => hne x (List.mem_cons_of_mem r2 hx))
          (fun x hx => hraw x (List.mem_cons_of_mem r2 hx))
          (fun x hx => hsl x (List.mem_cons_of_mem r2 hx)) hok hrest
      · have hr2 : r = r2 := by
          cases List.mem_cons.mp hmem with
          | inl h => exact h
          | inr h => exact absurd h hrest
        subst hr2
        rw [hrp] at hstep
        have hpp : pkgs2 = pkgs := by
          have := Except.ok.injEq (ε := Unit) pkgs pkgs2
          cases hstep
          rfl
        subst hpp
        have hrne := hne r (List.mem_cons_self r rest)
        have hshape := getRepoGo_shape fe fd root r hrne (files r) .nil pkgs2
          (hraw r (List.mem_cons_self r rest)) (hsl r (List.mem_cons_self r rest)) hrp
        have hsh : ∀ k2, pkgs2.hasKey k2 = true → keyShaped r k2 :=
          hshape.1 (fun k2 hk2 => Bool.noConfusion hk2)
        have hnd : noDupKeys pkgs2 = true := hshape.2 rfl
        have hmiss : ∀ r3 ∈ rest, ∀ pkgs3,
            getRepositoryPackages fe fd root r3 (files r3) = .ok pkgs3 →
            pkgs3.hasKey k = false := by
          intro r3 h3 pkgs3 hok3
          by_contra hcon
          have hk3 : pkgs3.hasKey k = true := by
            cases hx : pkgs3.hasKey k with
            | false => exact absurd hx hcon
            | true => rfl
          have hshape3 := getRepoGo_shape fe fd root r3
            (hne r3 (List.mem_cons_of_mem r h3)) (files r3) .nil pkgs3
            (hraw r3 (List.mem_cons_of_mem r h3)) (hsl r3 (List.mem_cons_of_mem r h3)) hok3
          have hs3 := hshape3.1 (fun k2 hk2 => Bool.noConfusion hk2) k hk3
          have hsr := hsh k hk
          have : r3 = r := keyShaped_inj r3 r k hs3 hsr
          exact hrest (this ▸ h3)
        rw [getMetaGo_preserve fe fd root files k rest (JsFields.setAll acc pkgs2)
          final hok hmiss,
          lookup_setAll_has pkgs2 acc k hnd hk]

/-- **C6**: whenever a repository in the search order contributes a
descriptor under some qualified name, the combined mapping returned by
`getMetadata` holds exactly that descriptor under that name: no other
repository overrides it.  (Qualified names are prefixed with the
repository name, so distinct repositories cannot collide; a repository
listed twice contributes the same descriptor both times.) -/
theorem c6_getMetadata_no_override (fe fd : List String) (root : String)
    (repos : List String) (files : String → List (String × JsValue))
    (r : String) (listF pkgs : JsFields) (k : String)
    (hne : ∀ r2 ∈ repos, ¬ r2 = "")
    (hraw : ∀ r2 ∈ repos, ∀ pr ∈ files r2, ∃ o, pr.2 = JsValue.vObj o)
    (hsl : ∀ r2 ∈ repos, ∀ pr ∈ files r2,
      (basename (dirname pr.1)).data.all (fun c => !(c = '/')) = true)
    (hall : getMetadata fe fd root repos files = .ok listF)
    (hr : r ∈ repos)
    (hrp : getRepositoryPackages fe fd root r (files r) = .ok pkgs)
    (hk : pkgs.hasKey k = true) :
    listF.lookup k = pkgs.lookup k :=
  getMetaGo_lookup fe fd root files r pkgs k hrp hk repos .nil listF hne hraw hsl hall hr

/-- Witness for the C6 theorem: two repositories, one package each; the
first repository's descriptor is exactly what the combined map returns. -/
theorem c6_witness :
    ∃ listF pkgs : JsFields,
      getMetadata [] [] "" ["default", "extra"]
        (fun r => [("src/packages/" ++ r ++ "/Pkg/metadata.json", .vObj .nil)]) =
        .ok listF ∧
      getRepositoryPackages [] [] "" "default"
        ((fun r => [("src/packages/" ++ r ++ "/Pkg/metadata.json",
          JsValue.vObj .nil)]) "default") = .ok pkgs ∧
      pkgs.hasKey "default/Pkg" = true ∧
      listF.lookup "default/Pkg" = pkgs.lookup "default/Pkg" := by
  refine ⟨_, _, rfl, rfl, by decide,
    c6_getMetadata_no_override [] [] "" ["default", "extra"]
      (fun r => [("src/packages/" ++ r ++ "/Pkg/metadata.json", .vObj .nil)])
      "default" _ _ "default/Pkg" ?_ ?_ ?_ rfl (by decide) rfl (by decide)⟩
  · intro r2 hr2
    fin_cases hr2 <;> decide
  · intro r2 hr2 pr hpr
    rw [List.mem_singleton] at hpr
    exact ⟨.nil, by rw [hpr]⟩
  · intro r2 hr2 pr hpr
    rw [List.mem_singleton] at hpr
    subst hpr
    fin_cases hr2 <;> decide


---------------------------------------------------------------------------
-- C1: mergeObject characterization
---------------------------------------------------------------------------

/-- The value one `for (p in obj2)` iteration of `mergeJSON` stores at `p`
when the accumulator holds `a` there: a non-object source value is
assigned as is; an object source value is replaced by
`mergeJSON(obj1[p], obj2[p])` when that call returns, and assigned as is
when it throws (the `catch` branch). -/
def mergeKeyResult (a v2 : JsValue) : JsValue :=
  match v2 with
  | .vObj g =>
    (match mergeFields a g with
     | .ok m => m
     | .error _ => .vObj g)
  | _ => v2

theorem mergeFields_obj_step (A : JsFields) (p : String) (v2 : JsValue) (rest : JsFields) :
    mergeFields (.vObj A) (.cons p v2 rest) =
      mergeFields (.vObj (A.set p
        (mergeKeyResult ((A.lookup p).getD .vUndef) v2))) rest := by
  cases v2 with
  | vObj g =>
    cases hm : mergeFields ((A.lookup p).getD .vUndef) g with
    | ok m => simp [mergeFields, mergeKeyResult, jsGetE, jsSetE, hm]
    | error e => simp [mergeFields, mergeKeyResult, jsGetE, jsSetE, hm]
  | vNull => simp [mergeFields, mergeKeyResult, jsSetE]
  | vUndef => simp [mergeFields, mergeKeyResult, jsSetE]
  | vBool b => simp [mergeFields, mergeKeyResult, jsSetE]
  | vNum n => simp [mergeFields, mergeKeyResult, jsSetE]
  | vStr s => simp [mergeFields, mergeKeyResult, jsSetE]
  | vArr xs => simp [mergeFields, mergeKeyResult, jsSetE]

/-- **C1** counterexample: `A = {k: 5}`, `B = {k: {a: 1}}`.  `B` defines
the leaf `1` at the path `k.a`, but the merge result is `{k: 5}`: the
property writes inside the recursive call silently no-op on the number
`5`, so the result at `k` equals `A`'s number, not `B`'s mapping. -/
theorem c1_counterexample :
    mergeObject (.vObj (.cons "k" (.vNum 5) .nil))
      (.vObj (.cons "k" (.vObj (.cons "a" (.vNum 1) .nil)) .nil)) =
      .ok (.vObj (.cons "k" (.vNum 5) .nil)) ∧
    getPathO (.vObj (.cons "k" (.vObj (.cons "a" (.vNum 1) .nil)) .nil)) ["k", "a"] =
      some (.vNum 1) ∧
    getPathO (.vObj (.cons "k" (.vNum 5) .nil)) ["k", "a"] = none :=
  ⟨rfl, rfl, rfl⟩

/-- **C1** (amended): merging plain mappings `A` and `B` always succeeds
and produces a mapping `R` that equals `A` at every key `B` is silent on,
and at every key `p` of `B` holds `mergeKeyResult`: `B`'s value when it is
not a plain object, and otherwise the recursive merge of `A`'s value with
`B`'s mapping — which leaves a primitive value of `A` (for example a
number) in place, rather than replacing it by `B`'s mapping. -/
theorem c1_mergeObject_characterization (B : JsFields) :
    ∀ A : JsFields, noDupKeys B = true →
    ∃ R : JsFields, mergeObject (.vObj A) (.vObj B) = .ok (.vObj R) ∧
      (∀ q, B.hasKey q = false → R.lookup q = A.lookup q) ∧
      (∀ q w, B.lookup q = some w →
        R.lookup q = some (mergeKeyResult ((A.lookup q).getD .vUndef) w)) := by
  induction B using JsFields.fieldsSpineInd with
  | hnil =>
    intro A _
    exact ⟨A, rfl, fun q _ => rfl, fun q w hw => by simp [JsFields.lookup] at hw⟩
  | hcons p v2 rest ih =>
    intro A hnd
    simp only [noDupKeys, Bool.and_eq_true, Bool.not_eq_true'] at hnd
    obtain ⟨hnp, hnd2⟩ := hnd
    obtain ⟨R, hR, h1, h2⟩ :=
      ih (A.set p (mergeKeyResult ((A.lookup p).getD .vUndef) v2)) hnd2
    refine ⟨R, ?_, ?_, ?_⟩
    · show mergeFields (.vObj A) (.cons p v2 rest) = .ok (.vObj R)
      rw [mergeFields_obj_step]
      exact hR
    · intro q hq
      simp only [JsFields.hasKey, Bool.or_eq_false_iff] at hq
      obtain ⟨hq1, hq2⟩ := hq
      have hpq : ¬ p = q := by
        intro he
        rw [he] at hq1
        simp at hq1
      rw [h1 q hq2, JsFields.lookup_set, if_neg hpq]
    · intro q w hw
      by_cases hpq : p = q
      · subst hpq
        simp [JsFields.lookup] at hw
        subst hw
        rw [h1 p hnp, JsFields.lookup_set, if_pos rfl]
      · simp only [JsFields.lookup, if_neg hpq] at hw
        rw [h2 q w hw, JsFields.lookup_set, if_neg hpq]

/-- Witness for the amended C1 theorem at `A = {k: 5, u: 1}` and
`B = {k: {a: 1}, x: "y"}`. -/
theorem c1_witness :
    noDupKeys (.cons "k" (.vObj (.cons "a" (.vNum 1) .nil))
      (.cons "x" (.vStr "y") .nil)) = true ∧
    (∃ R : JsFields,
      mergeObject (.vObj (.cons "k" (.vNum 5) (.cons "u" (.vNum 1) .nil)))
        (.vObj (.cons "k" (.vObj (.cons "a" (.vNum 1) .nil))
          (.cons "x" (.vStr "y") .nil))) = .ok (.vObj R) ∧
      (∀ q, (JsFields.cons "k" (.vObj (.cons "a" (.vNum 1) .nil))
          (.cons "x" (.vStr "y") .nil)).hasKey q = false →
        R.lookup q = (JsFields.cons "k" (.vNum 5)
          (.cons "u" (.vNum 1) .nil)).lookup q) ∧
      (∀ q w, (JsFields.cons "k" (.vObj (.cons "a" (.vNum 1) .nil))
          (.cons "x" (.vStr "y") .nil)).lookup q = some w →
        R.lookup q = some (mergeKeyResult
          (((JsFields.cons "k" (.vNum 5)
            (.cons "u" (.vNum 1) .nil)).lookup q).getD .vUndef) w))) :=
  ⟨by decide,
    c1_mergeObject_characterization
      (.cons "k" (.vObj (.cons "a" (.vNum 1) .nil)) (.cons "x" (.vStr "y") .nil))
      (.cons "k" (.vNum 5) (.cons "u" (.vNum 1) .nil)) (by decide)⟩

end OsjsBuild
